import Mathlib

/-!
# DICOM-Viewer: volume ingestion and the four-slot view session

A shallow embedding of `src/main.cpp`:

* `loadDICOMVolume` (directory scan, `std::sort`, decode pass, global rescale),
* `upload3DTexture` / `loadNewVolume`,
* `processInput` acting on the global session variables
  (`textures`, `activeView`, `sliceZs`, `zoomLevels`, `zoomCenters`).

`float` and `double` values are the rationals they denote; every arithmetic
operation is followed by the IEEE-754 round-to-nearest-even of its format
(`f32` for `float`, `f64` for `double`).
-/

namespace DicomViewer

/-! ## IEEE-754 rounding -/

/-- Round a rational to the nearest integer, ties to the even integer. -/
def rne (x : ℚ) : ℤ :=
  let f := ⌊x⌋
  let r := x - f
  if r < 1 / 2 then f else if 1 / 2 < r then f + 1 else if f % 2 = 0 then f else f + 1

/-- Number of binary digits of `n`, by repeated halving (at most `fuel`
halvings; `fuel = n` is always enough). -/
def bitLength : ℕ → ℕ → ℕ
  | 0, _ => 0
  | fuel + 1, n => if n = 0 then 0 else bitLength fuel (n / 2) + 1

/-- The binary exponent of a nonzero rational: the integer `e` with
`2 ^ e ≤ |q| < 2 ^ (e + 1)`, found from the bit lengths of numerator and
denominator. -/
def ilog2 (q : ℚ) : ℤ :=
  let e : ℤ := (bitLength q.num.natAbs q.num.natAbs : ℤ) - (bitLength q.den q.den : ℤ)
  if |q| < (2 : ℚ) ^ e then e - 1 else e

/-- Exponent of the unit in the last place of a nonzero `q` in a binary format
with `p` significand bits whose smallest normal exponent is `emin`. -/
def ulpExp (p : ℕ) (emin : ℤ) (q : ℚ) : ℤ :=
  max (ilog2 q) emin - ((p : ℤ) - 1)

/-- Round-to-nearest-even into the binary format with `p` significand bits and
smallest normal exponent `emin` (subnormals included; the format is taken
without an upper limit, every value met in this program being below 256). -/
def roundFloat (p : ℕ) (emin : ℤ) (q : ℚ) : ℚ :=
  if q = 0 then 0 else (rne (q / (2 : ℚ) ^ ulpExp p emin q) : ℚ) * (2 : ℚ) ^ ulpExp p emin q

/-- Rounding to `float` (binary32). -/
def f32 (q : ℚ) : ℚ := roundFloat 24 (-126) q

/-- Rounding to `double` (binary64). -/
def f64 (q : ℚ) : ℚ := roundFloat 53 (-1022) q

/-- The function `std::min(a, b)`: `(b < a) ? b : a`. -/
def stdMin {α : Type} [LT α] [DecidableRel (fun a b : α => a < b)] (a b : α) : α :=
  if b < a then b else a

/-- The function `std::max(a, b)`: `(a < b) ? b : a`. -/
def stdMax {α : Type} [LT α] [DecidableRel (fun a b : α => a < b)] (a b : α) : α :=
  if a < b then b else a

/-- Conversion `static_cast<uint8_t>(double)`: the fractional part is discarded
(truncation toward zero). C++ defines the conversion only when the truncated
value is in [0, 255]; outside that range the value is taken modulo 256 here
(`rescale_range` shows the rescale loop never leaves the range). -/
def castU8 (x : ℚ) : ℕ :=
  ((if 0 ≤ x then ⌊x⌋ else ⌈x⌉) % 256).toNat

/-! ## Files and folders -/

/-- A 16-bit unsigned value (`Uint16`). -/
abbrev Uint16 := Fin 65536

/-- The attributes of a loaded DICOM data set that `loadDICOMVolume` reads; an
attribute that is absent is `none` (the `findAndGet...` call then leaves its
output variable untouched). -/
structure DcmDataset where
  instanceNumber : Option ℤ
  columns : Option Uint16
  rows : Option Uint16
  pixelData : Option (List Uint16)
deriving DecidableEq

/-- A folder as `loadDICOMVolume` sees it: the paths `fs::directory_iterator`
yields, in enumeration order, the outcome of `DcmFileFormat::loadFile` on a
path (`none` when the returned status is bad), and, for the data set loaded
from a path, the 16-bit words that lie in memory behind the last sample of its
pixel data (`pastEnd path i` is the word `i` places behind the end; it is read
only when `columns * rows` exceeds the number of samples). -/
structure Folder where
  entries : List String
  loadFile : String → Option DcmDataset
  pastEnd : String → ℕ → Uint16

/-- The last path component (`path::filename`). -/
def filename (path : String) : List Char :=
  (path.toList.reverse.takeWhile (fun c => c ≠ '/')).reverse

/-- The path extension (`path::extension`): the part of the file name from its
last dot, empty for `.`, `..`, a name without a dot and a name whose only dot
is its first character. -/
def extension (path : String) : List Char :=
  match filename path with
  | [] => []
  | c :: rest =>
    if c = '.' ∧ rest = ['.'] then []
    else if '.' ∈ rest then '.' :: (rest.reverse.takeWhile (fun d => d ≠ '.')).reverse
    else []

/-- The voxel buffer with its dimensions (`struct Volume`). -/
structure Volume where
  data : List ℕ
  width : ℕ
  height : ℕ
  depth : ℕ
deriving DecidableEq

/-! ## `loadDICOMVolume` -/

/-- First loop of `loadDICOMVolume`: every entry with extension `.dcm` that
loads contributes `(instance, path)`, where `instance` is 0 unless the
data set has an instance number. -/
def indexPass (folder : Folder) : List (ℤ × String) :=
  folder.entries.filterMap fun path =>
    if extension path = ['.', 'd', 'c', 'm'] then
      match folder.loadFile path with
      | some dataset => some (dataset.instanceNumber.getD 0, path)
      | none => none
    else none

/-- The comparison `operator<` of `std::tuple<int, std::string>`:
lexicographic, first the number, then the string. -/
def tupleLt (a b : ℤ × String) : Prop :=
  a.1 < b.1 ∨ (¬ b.1 < a.1 ∧ a.2 < b.2)

instance : DecidableRel tupleLt := fun a b => by
  unfold tupleLt
  exact inferInstance

/-- The order `std::sort` arranges by: `a` may stand before `b` when `b < a`
does not hold. -/
def tupleLe (a b : ℤ × String) : Prop := ¬ tupleLt b a

instance : DecidableRel tupleLe := fun a b => by
  unfold tupleLe
  exact inferInstance

/-- The call `std::sort(slices.begin(), slices.end())`: the ascending
arrangement of the list under `operator<` (computed here by insertion). -/
def sortSlices (slices : List (ℤ × String)) : List (ℤ × String) :=
  slices.insertionSort tupleLe

/-- The local variables of the decode loop. -/
structure DecodeState where
  width : ℕ
  height : ℕ
  minVal : Uint16
  maxVal : Uint16
  rawSlices : List (List Uint16)
deriving DecidableEq

/-- The number of samples `w * h` in `pixels + w * h`. Both factors are
promoted to `int`, so the C++ product is this exact product whenever it is at
most `INT_MAX` = 2147483647. A larger product overflows `int`, which C++
leaves undefined; the exact product is kept for it here. (Such a product is
larger than any pixel-data element, whose length field has 32 bits.) -/
def sampleCount (w h : Uint16) : ℕ := w.val * h.val

/-- The copy `std::vector<Uint16> slice(pixels, pixels + n)`: exactly `n` words
starting at the pixel pointer, whatever the pixel data holds. Word `i` is
sample `i` of the pixel data while `i` is inside it, and otherwise the word
that lies `i - length` places behind its end in memory. -/
def readSamples (pixels : List Uint16) (pastEnd : ℕ → Uint16) (n : ℕ) : List Uint16 :=
  (List.range n).map fun i => pixels.getD i (pastEnd (i - pixels.length))

/-- The samples one slice reference contributes in the decode loop: `none`
when the file does not load or has no pixel data (the two `continue`s),
otherwise the `w * h` words copied from the pixel pointer. -/
def decodeSlice (folder : Folder) (ref : ℤ × String) : Option (List Uint16) :=
  match folder.loadFile ref.2 with
  | none => none
  | some dataset =>
    match dataset.pixelData with
    | none => none
    | some pixels =>
      some (readSamples pixels (folder.pastEnd ref.2)
        (sampleCount (dataset.columns.getD 0) (dataset.rows.getD 0)))

/-- One iteration of the decode loop. -/
def decodeStep (folder : Folder) (st : DecodeState) (ref : ℤ × String) : DecodeState :=
  match folder.loadFile ref.2 with
  | none => st
  | some dataset =>
    match dataset.pixelData with
    | none => st
    | some pixels =>
      let w := dataset.columns.getD 0
      let h := dataset.rows.getD 0
      let slice := readSamples pixels (folder.pastEnd ref.2) (sampleCount w h)
      { width := if st.width = 0 then w.val else st.width
        height := if st.width = 0 then h.val else st.height
        minVal := slice.foldl stdMin st.minVal
        maxVal := slice.foldl stdMax st.maxVal
        rawSlices := st.rawSlices ++ [slice] }

/-- The decode loop over the sorted references, from
`width = 0, height = 0, minVal = 65535, maxVal = 0` and no raw slice. -/
def decodePass (folder : Folder) (slices : List (ℤ × String)) : DecodeState :=
  slices.foldl (decodeStep folder)
    { width := 0, height := 0, minVal := 65535, maxVal := 0, rawSlices := [] }

/-- The value of `scale`. -/
def scaleOf (minVal maxVal : Uint16) : ℚ :=
  if minVal < maxVal then f64 (255 / (((maxVal.val : ℤ) - (minVal.val : ℤ) : ℤ) : ℚ)) else 1

/-- The byte stored for a sample: `static_cast<uint8_t>((px - minVal) * scale)`,
the difference being taken in `int` and the product in `double`. -/
def toByte (minVal : Uint16) (scale : ℚ) (px : Uint16) : ℕ :=
  castU8 (f64 ((((px.val : ℤ) - (minVal.val : ℤ) : ℤ) : ℚ) * scale))

/-- The rescale loop: every sample of every raw slice, in order. -/
def rescale (st : DecodeState) : List ℕ :=
  st.rawSlices.flatten.map (toByte st.minVal (scaleOf st.minVal st.maxVal))

/-- The function `loadDICOMVolume`. -/
def loadDICOMVolume (folder : Folder) : Volume :=
  let slices := sortSlices (indexPass folder)
  let st := decodePass folder slices
  { data := rescale st, width := st.width, height := st.height, depth := slices.length }

/-! ## Texture upload -/

/-- The function `upload3DTexture`: the name `glGenTextures` hands out
(`texID`, supplied by the GL implementation) is returned. -/
def upload3DTexture (_vol : Volume) (texID : ℕ) : ℕ := texID

/-- The function `loadNewVolume`: `GLuint(-1)` for an empty volume, otherwise
the uploaded texture. -/
def loadNewVolume (folder : Folder) (texID : ℕ) : ℕ :=
  let volume := loadDICOMVolume folder
  if volume.data.isEmpty then 4294967295 else upload3DTexture volume texID

/-! ## The view session -/

/-- The global variables `processInput` works on, with the close flag of the
window. -/
structure Session where
  textures : List ℕ
  activeView : ℕ
  sliceZs : List ℚ
  zoomLevels : List ℚ
  zoomCenters : List (ℚ × ℚ)
  shouldClose : Bool
deriving DecidableEq

/-- The initial values of the globals. -/
def Session.init : Session :=
  { textures := []
    activeView := 1
    sliceZs := [1 / 2, 1 / 2, 1 / 2, 1 / 2]
    zoomLevels := [1, 1, 1, 1]
    zoomCenters := [(1 / 2, 1 / 2), (1 / 2, 1 / 2), (1 / 2, 1 / 2), (1 / 2, 1 / 2)]
    shouldClose := false }

/-- What one call of `processInput` observes: which keys are pressed, what
the folder dialog returns (`none` for a null pointer, otherwise the folder at
the picked path) and the texture name the GL implementation would hand out. -/
structure Input where
  escape : Bool
  key1 : Bool
  key2 : Bool
  key3 : Bool
  key4 : Bool
  keyW : Bool
  keyS : Bool
  keyJ : Bool
  keyU : Bool
  keyL : Bool
  picked : Option Folder
  texID : ℕ

/-- The update of key W: `std::min(z + 0.01f, 1.0f)`. -/
def sliceUp (z : ℚ) : ℚ := stdMin (f32 (z + f32 (1 / 100))) 1

/-- The update of key S: `std::max(z - 0.01f, 0.0f)`. -/
def sliceDown (z : ℚ) : ℚ := stdMax (f32 (z - f32 (1 / 100))) 0

/-- The update of key J: `std::min(zoom * 1.05f, 5.0f)`. -/
def zoomIn (z : ℚ) : ℚ := stdMin (f32 (z * f32 (105 / 100))) 5

/-- The update of key U: `std::max(zoom * 0.95f, 0.2f)`. -/
def zoomOut (z : ℚ) : ℚ := stdMax (f32 (z * f32 (95 / 100))) (f32 (1 / 5))

/-- The assignment `a[i] = f(a[i])` on one of the four-element arrays. -/
def updateAt (a : List ℚ) (i : ℕ) (f : ℚ → ℚ) : List ℚ :=
  a.set i (f (a.getD i 0))

/-- The key-L block of `processInput`. -/
def loadBlock (inp : Input) (s : Session) : Session :=
  match inp.picked with
  | none => s
  | some folder =>
    let texID := loadNewVolume folder inp.texID
    let s1 : Session :=
      if s.textures.length < 4 then
        { s with activeView := s.textures.length, textures := s.textures ++ [texID] }
      else
        { s with textures := s.textures.set s.activeView texID }
    { s1 with
      sliceZs := s1.sliceZs.set s1.activeView (1 / 2)
      zoomLevels := s1.zoomLevels.set s1.activeView 1 }

/-- The function `processInput`: the key tests in source order. -/
def processInput (inp : Input) (s : Session) : Session :=
  let s := if inp.escape then { s with shouldClose := true } else s
  let s := if inp.key1 then { s with activeView := 0 } else s
  let s := if inp.key2 then { s with activeView := 1 } else s
  let s := if inp.key3 then { s with activeView := 2 } else s
  let s := if inp.key4 then { s with activeView := 3 } else s
  let s := if inp.keyW then { s with sliceZs := updateAt s.sliceZs s.activeView sliceUp } else s
  let s := if inp.keyS then { s with sliceZs := updateAt s.sliceZs s.activeView sliceDown } else s
  let s := if inp.keyJ then { s with zoomLevels := updateAt s.zoomLevels s.activeView zoomIn } else s
  let s := if inp.keyU then { s with zoomLevels := updateAt s.zoomLevels s.activeView zoomOut } else s
  if inp.keyL then loadBlock inp s else s

/-- The key-ESCAPE test of `processInput`. -/
def onEscape (pressed : Bool) (s : Session) : Session :=
  if pressed then { s with shouldClose := true } else s

/-- A key test of `processInput` that assigns `activeView = k`. -/
def onSelect (pressed : Bool) (k : ℕ) (s : Session) : Session :=
  if pressed then { s with activeView := k } else s

/-- A key test of `processInput` that updates `sliceZs[activeView]` by `f`. -/
def onSlice (pressed : Bool) (f : ℚ → ℚ) (s : Session) : Session :=
  if pressed then { s with sliceZs := updateAt s.sliceZs s.activeView f } else s

/-- A key test of `processInput` that updates `zoomLevels[activeView]` by `f`. -/
def onZoom (pressed : Bool) (f : ℚ → ℚ) (s : Session) : Session :=
  if pressed then { s with zoomLevels := updateAt s.zoomLevels s.activeView f } else s

/-- The key-L test of `processInput`. -/
def onLoad (inp : Input) (s : Session) : Session :=
  if inp.keyL then loadBlock inp s else s

/-- The session after a sequence of `processInput` calls. -/
def run (inputs : List Input) (s : Session) : Session :=
  inputs.foldl (fun st inp => processInput inp st) s

/-- No key pressed. -/
def Input.idle : Input :=
  { escape := false, key1 := false, key2 := false, key3 := false, key4 := false
    keyW := false, keyS := false, keyJ := false, keyU := false, keyL := false
    picked := none, texID := 0 }

/-- The command `SelectSlot i` (keys 1 to 4). -/
def Input.selectSlot (i : Fin 4) : Input :=
  { Input.idle with key1 := i = 0, key2 := i = 1, key3 := i = 2, key4 := i = 3 }

/-- The command `IncreaseSlice` (key W). -/
def Input.increaseSlice : Input := { Input.idle with keyW := true }

/-- The command `DecreaseSlice` (key S). -/
def Input.decreaseSlice : Input := { Input.idle with keyS := true }

/-- The command `ZoomIn` (key J). -/
def Input.zoomIn : Input := { Input.idle with keyJ := true }

/-- The command `ZoomOut` (key U). -/
def Input.zoomOut : Input := { Input.idle with keyU := true }

/-- The command `LoadVolume` (key L) when the dialog returns `folder` and the
GL implementation names the new texture `texID`. -/
def Input.loadVolume (folder : Folder) (texID : ℕ) : Input :=
  { Input.idle with keyL := true, picked := some folder, texID := texID }

/-- The ranges of the session variables: at most four textures, the active
view among 0 to 3, four slice depths in [0, 1], four zoom levels between the
floats 0.2f and 5.0f, and the four zoom centres at (0.5, 0.5). -/
def Session.Valid (s : Session) : Prop :=
  s.textures.length ≤ 4 ∧ s.activeView ≤ 3 ∧
    s.sliceZs.length = 4 ∧ (∀ z ∈ s.sliceZs, 0 ≤ z ∧ z ≤ 1) ∧
    s.zoomLevels.length = 4 ∧ (∀ z ∈ s.zoomLevels, f32 (1 / 5) ≤ z ∧ z ≤ 5) ∧
    s.zoomCenters = [(1 / 2, 1 / 2), (1 / 2, 1 / 2), (1 / 2, 1 / 2), (1 / 2, 1 / 2)]

/-! ## Well-formed slice files -/

/-- A reference whose file has pixel data of at least `w * h` samples and
dimensions `w` columns, `h` rows. -/
def Decodes (folder : Folder) (w h : Uint16) (ref : ℤ × String) : Prop :=
  ∃ dataset pixels, folder.loadFile ref.2 = some dataset ∧ dataset.pixelData = some pixels ∧
    dataset.columns = some w ∧ dataset.rows = some h ∧ w.val * h.val ≤ pixels.length

/-- A reference whose copy stays inside the pixel data: the file it names holds
at least `columns * rows` samples. -/
def InBounds (folder : Folder) (ref : ℤ × String) : Prop :=
  ∀ dataset pixels, folder.loadFile ref.2 = some dataset → dataset.pixelData = some pixels →
    sampleCount (dataset.columns.getD 0) (dataset.rows.getD 0) ≤ pixels.length

/-- The state of the decode loop while every sample met so far equals `v`. -/
def FlatState (v : Uint16) (st : DecodeState) : Prop :=
  (∀ s ∈ st.rawSlices, ∀ px ∈ s, px = v) ∧
    ((st.minVal = 65535 ∧ st.maxVal = 0 ∧ ∀ s ∈ st.rawSlices, s = []) ∨
      (st.minVal = v ∧ st.maxVal = v))

/-! ## Sample folders -/

/-- A data set with instance number `inst`, `w` columns, `h` rows and the
given samples. -/
def sliceFile (inst : ℤ) (w h : Uint16) (pixels : List Uint16) : DcmDataset :=
  { instanceNumber := some inst, columns := some w, rows := some h, pixelData := some pixels }

/-- A folder given by its files in enumeration order: each path with the
outcome of loading it; the memory behind every pixel buffer holds the given
word. -/
def folderWith (files : List (String × Option DcmDataset)) (word : Uint16) : Folder :=
  { entries := files.map Prod.fst
    loadFile := fun path => (files.lookup path).join
    pastEnd := fun _ _ => word }

/-- A folder given by its files, with zeros behind every pixel buffer. -/
def folderOf (files : List (String × Option DcmDataset)) : Folder :=
  folderWith files 0

/-- One slice of two samples, 0 and 25. -/
def rangeFolder : Folder :=
  folderOf [("scan/a.dcm", some (sliceFile 1 2 1 [0, 25]))]

/-- Three slices with pixel data, a text file, and a `.dcm` file that loads
but has neither dimensions nor pixel data. -/
def skipFolder : Folder :=
  folderOf
    [("scan/3.dcm", some (sliceFile 3 1 1 [30])),
     ("scan/notes.txt", none),
     ("scan/1.dcm", some (sliceFile 1 1 1 [10])),
     ("scan/report.dcm",
      some { instanceNumber := some 9, columns := none, rows := none, pixelData := none }),
     ("scan/2.dcm", some (sliceFile 2 1 1 [20]))]

/-- Two slices of different dimensions, 1 x 1 and 2 x 2. -/
def mixedFolder : Folder :=
  folderOf
    [("scan/1.dcm", some (sliceFile 1 1 1 [7])),
     ("scan/2.dcm", some (sliceFile 2 2 2 [1, 2, 3, 4]))]

/-- Two slices with the same instance number, enumerated `b.dcm` first. -/
def tieFolder : Folder :=
  folderOf
    [("scan/b.dcm", some (sliceFile 1 1 1 [200])),
     ("scan/a.dcm", some (sliceFile 1 1 1 [100]))]

/-- The folder of `tieFolder` enumerated in the other order. -/
def tieFolderRev : Folder :=
  folderOf
    [("scan/a.dcm", some (sliceFile 1 1 1 [100])),
     ("scan/b.dcm", some (sliceFile 1 1 1 [200]))]

/-- Two slices of 2 x 1 samples each. -/
def uniformFolder : Folder :=
  folderOf
    [("scan/2.dcm", some (sliceFile 2 2 1 [30, 40])),
     ("scan/1.dcm", some (sliceFile 1 2 1 [10, 20]))]

/-- Two slices of 2 x 1 samples, every decoded sample equal to 7; the pixel
data of the second file goes on with a third sample, which is not decoded. -/
def flatFolder : Folder :=
  folderOf
    [("scan/1.dcm", some (sliceFile 1 2 1 [7, 7])),
     ("scan/2.dcm", some (sliceFile 2 2 1 [7, 7, 1000]))]

/-- One file of 2 x 2 with a single sample 5 in its pixel data; the memory
behind the pixel data holds 9. -/
def shortFolder : Folder :=
  folderWith [("scan/1.dcm", some (sliceFile 1 2 2 [5]))] 9

/-- A folder without entries. -/
def emptyFolder : Folder := folderOf []

/-! ## The slice index: `std::sort` on `(instance, path)` -/

theorem tupleLe_iff (a b : ℤ × String) :
    tupleLe a b ↔ a.1 < b.1 ∨ (a.1 = b.1 ∧ a.2 ≤ b.2) := by
  unfold tupleLe tupleLt
  rcases lt_trichotomy a.1 b.1 with h | h | h
  · simp [h, not_lt_of_lt h]
  · simp [h]
  · simp [h, not_lt_of_lt h, ne_of_gt h]

theorem tupleLe_total (a b : ℤ × String) : tupleLe a b ∨ tupleLe b a := by
  rw [tupleLe_iff, tupleLe_iff]
  rcases lt_trichotomy a.1 b.1 with h | h | h
  · exact Or.inl (Or.inl h)
  · rcases le_total a.2 b.2 with h2 | h2
    · exact Or.inl (Or.inr ⟨h, h2⟩)
    · exact Or.inr (Or.inr ⟨h.symm, h2⟩)
  · exact Or.inr (Or.inl h)

theorem tupleLe_trans (a b c : ℤ × String) (hab : tupleLe a b) (hbc : tupleLe b c) :
    tupleLe a c := by
  rw [tupleLe_iff] at *
  rcases hab with h | ⟨h, h2⟩
  · rcases hbc with k | ⟨k, _⟩
    · exact Or.inl (lt_trans h k)
    · exact Or.inl (k ▸ h)
  · rcases hbc with k | ⟨k, k2⟩
    · exact Or.inl (h ▸ k)
    · exact Or.inr ⟨h.trans k, le_trans h2 k2⟩

theorem tupleLe_antisymm (a b : ℤ × String) (hab : tupleLe a b) (hba : tupleLe b a) :
    a = b := by
  rw [tupleLe_iff] at *
  rcases hab with h | ⟨h, h2⟩
  · rcases hba with k | ⟨k, _⟩
    · exact absurd (lt_trans h k) (lt_irrefl _)
    · exact absurd (k ▸ h) (lt_irrefl _)
  · rcases hba with k | ⟨_, k2⟩
    · exact absurd (h ▸ k) (lt_irrefl _)
    · exact Prod.ext h (le_antisymm h2 k2)

theorem sortSlices_perm (l : List (ℤ × String)) : (sortSlices l).Perm l :=
  List.perm_insertionSort tupleLe l

theorem sortSlices_sorted (l : List (ℤ × String)) : (sortSlices l).Sorted tupleLe :=
  @List.sorted_insertionSort _ tupleLe _ ⟨tupleLe_total⟩ ⟨tupleLe_trans⟩ l

/-- Any ascending arrangement of the collected references is the list
`sortSlices` computes: the outcome of `std::sort` does not depend on the
sorting algorithm. -/
theorem sortSlices_unique (l r : List (ℤ × String)) (hp : r.Perm l) (hs : r.Sorted tupleLe) :
    r = sortSlices l :=
  @List.eq_of_perm_of_sorted _ tupleLe ⟨tupleLe_antisymm⟩ _ _
    (hp.trans (sortSlices_perm l).symm) hs (sortSlices_sorted l)

theorem decodeStep_rawSlices (folder : Folder) (st : DecodeState) (ref : ℤ × String) :
    (decodeStep folder st ref).rawSlices =
      st.rawSlices ++ (decodeSlice folder ref).toList := by
  unfold decodeStep decodeSlice
  cases h1 : folder.loadFile ref.2 with
  | none => simp
  | some dataset =>
    cases h2 : dataset.pixelData with
    | none => simp [h2]
    | some pixels => simp [h2]

theorem foldl_decodeStep_rawSlices (folder : Folder) (l : List (ℤ × String)) (st : DecodeState) :
    (l.foldl (decodeStep folder) st).rawSlices =
      st.rawSlices ++ l.filterMap (decodeSlice folder) := by
  induction l generalizing st with
  | nil => simp
  | cons ref l ih =>
    rw [List.foldl_cons, ih, decodeStep_rawSlices]
    cases h : decodeSlice folder ref <;> simp [List.filterMap_cons, h]

theorem decodePass_rawSlices (folder : Folder) (l : List (ℤ × String)) :
    (decodePass folder l).rawSlices = l.filterMap (decodeSlice folder) := by
  unfold decodePass
  rw [foldl_decodeStep_rawSlices]
  rfl

/-- C4: the sorted list is a permutation of the collected references with
non-decreasing ordering keys; the raw slices are decoded, and the voxel bytes
packed, in the order of the sorted list; references keyed 5, 1, 3 come out
in the order 1, 3, 5. -/
theorem slices_in_key_order :
    (∀ l : List (ℤ × String),
      (sortSlices l).Perm l ∧ ((sortSlices l).map Prod.fst).Sorted (fun j k => j ≤ k)) ∧
    (∀ folder : Folder,
      (decodePass folder (sortSlices (indexPass folder))).rawSlices =
        (sortSlices (indexPass folder)).filterMap (decodeSlice folder) ∧
      (loadDICOMVolume folder).data =
        (((sortSlices (indexPass folder)).filterMap (decodeSlice folder)).flatten).map
          (toByte (decodePass folder (sortSlices (indexPass folder))).minVal
            (scaleOf (decodePass folder (sortSlices (indexPass folder))).minVal
              (decodePass folder (sortSlices (indexPass folder))).maxVal))) ∧
    (∀ a b c : String,
      sortSlices [(5, a), (1, b), (3, c)] = [(1, b), (3, c), (5, a)]) := by
  refine ⟨fun l => ⟨sortSlices_perm l, ?_⟩, fun folder => ⟨decodePass_rawSlices _ _, ?_⟩, ?_⟩
  · rw [List.Sorted, List.pairwise_map]
    refine (sortSlices_sorted l).imp ?_
    intro a b hab
    rcases (tupleLe_iff a b).1 hab with h | ⟨h, _⟩
    · exact le_of_lt h
    · exact le_of_eq h
  · show rescale _ = _
    unfold rescale
    rw [decodePass_rawSlices]
  · intro a b c
    simp [sortSlices, List.insertionSort, List.orderedInsert, tupleLe, tupleLt]

/-! ## Ties in the ordering key -/

/-- C9 (as stated, refuted): two references with the same ordering key that
the enumeration produced as `b.dcm`, `a.dcm` come out of the sort as `a.dcm`,
`b.dcm`; the other enumeration order gives the same sorted list. -/
theorem tie_order_not_enumeration_order :
    indexPass tieFolder = [(1, "scan/b.dcm"), (1, "scan/a.dcm")] ∧
      sortSlices (indexPass tieFolder) = [(1, "scan/a.dcm"), (1, "scan/b.dcm")] ∧
      sortSlices (indexPass tieFolderRev) = [(1, "scan/a.dcm"), (1, "scan/b.dcm")] := by
  decide!

/-- C9 (amended): the sorted list does not depend on the enumeration order (two
enumerations of the same references sort to the same list), and references
with equal ordering key stand in ascending order of their paths. -/
theorem tie_order_by_path (l₁ l₂ : List (ℤ × String)) (h : l₁.Perm l₂) :
    sortSlices l₁ = sortSlices l₂ ∧
      (sortSlices l₁).Pairwise (fun a b => a.1 = b.1 → a.2 ≤ b.2) := by
  refine ⟨sortSlices_unique l₂ _ ((sortSlices_perm l₁).trans h) (sortSlices_sorted l₁), ?_⟩
  refine (sortSlices_sorted l₁).imp ?_
  intro a b hab hk
  rcases (tupleLe_iff a b).1 hab with h1 | ⟨_, h2⟩
  · exact absurd (hk ▸ h1) (lt_irrefl _)
  · exact h2

theorem tie_order_by_path_witness :
    (indexPass tieFolder).Perm (indexPass tieFolderRev) ∧
      sortSlices (indexPass tieFolder) = sortSlices (indexPass tieFolderRev) ∧
      (sortSlices (indexPass tieFolder)).Pairwise (fun a b => a.1 = b.1 → a.2 ≤ b.2) :=
  ⟨by decide!, tie_order_by_path _ _ (by decide!)⟩

/-! ## The decode loop: depth, dimensions and buffer length -/

theorem readSamples_length (pixels : List Uint16) (pastEnd : ℕ → Uint16) (n : ℕ) :
    (readSamples pixels pastEnd n).length = n := by
  simp [readSamples]

/-- Within the pixel data the copy is its first `n` samples. -/
theorem readSamples_of_le (pixels : List Uint16) (pastEnd : ℕ → Uint16) (n : ℕ)
    (hn : n ≤ pixels.length) : readSamples pixels pastEnd n = pixels.take n := by
  apply List.ext_getElem
  · simp [readSamples, hn]
  · intro i h1 h2
    have hi : i < n := by simpa [readSamples] using h1
    have hlen : i < pixels.length := lt_of_lt_of_le hi hn
    simp [readSamples, List.getElem?_eq_getElem hlen]

theorem decodeSlice_some (folder : Folder) (ref : ℤ × String) (dataset : DcmDataset)
    (pixels : List Uint16) (h1 : folder.loadFile ref.2 = some dataset)
    (h2 : dataset.pixelData = some pixels) :
    decodeSlice folder ref =
      some (readSamples pixels (folder.pastEnd ref.2)
        (sampleCount (dataset.columns.getD 0) (dataset.rows.getD 0))) := by
  simp [decodeSlice, h1, h2]

theorem decodeStep_some (folder : Folder) (st : DecodeState) (ref : ℤ × String)
    (dataset : DcmDataset) (pixels : List Uint16) (h1 : folder.loadFile ref.2 = some dataset)
    (h2 : dataset.pixelData = some pixels) :
    decodeStep folder st ref =
      { width := if st.width = 0 then (dataset.columns.getD 0).val else st.width
        height := if st.width = 0 then (dataset.rows.getD 0).val else st.height
        minVal := (readSamples pixels (folder.pastEnd ref.2)
          (sampleCount (dataset.columns.getD 0) (dataset.rows.getD 0))).foldl stdMin st.minVal
        maxVal := (readSamples pixels (folder.pastEnd ref.2)
          (sampleCount (dataset.columns.getD 0) (dataset.rows.getD 0))).foldl stdMax st.maxVal
        rawSlices := st.rawSlices ++
          [readSamples pixels (folder.pastEnd ref.2)
            (sampleCount (dataset.columns.getD 0) (dataset.rows.getD 0))] } := by
  simp [decodeStep, h1, h2]

theorem decodeSlice_length (folder : Folder) (w h : Uint16) (ref : ℤ × String)
    (hd : Decodes folder w h ref) :
    ∃ slice, decodeSlice folder ref = some slice ∧ slice.length = w.val * h.val := by
  obtain ⟨dataset, pixels, h1, h2, hw, hh, -⟩ := hd
  refine ⟨_, decodeSlice_some folder ref dataset pixels h1 h2, ?_⟩
  rw [readSamples_length, hw, hh]
  rfl

theorem decodeStep_dims (folder : Folder) (w h : Uint16) (st : DecodeState) (ref : ℤ × String)
    (hd : Decodes folder w h ref)
    (hst : st.width = 0 ∨ st.width * st.height = w.val * h.val) :
    (decodeStep folder st ref).width * (decodeStep folder st ref).height = w.val * h.val := by
  obtain ⟨dataset, pixels, h1, h2, hw, hh, -⟩ := hd
  rw [decodeStep_some folder st ref dataset pixels h1 h2]
  by_cases h0 : st.width = 0
  · simp [h0, hw, hh]
  · rcases hst with hst | hst
    · exact absurd hst h0
    · simp [h0, hst]

theorem foldl_decodeStep_dims (folder : Folder) (w h : Uint16) (l : List (ℤ × String))
    (st : DecodeState) (hl : ∀ ref ∈ l, Decodes folder w h ref) (hne : l ≠ [])
    (hst : st.width = 0 ∨ st.width * st.height = w.val * h.val) :
    (l.foldl (decodeStep folder) st).width * (l.foldl (decodeStep folder) st).height =
      w.val * h.val := by
  induction l generalizing st with
  | nil => exact absurd rfl hne
  | cons ref l ih =>
    have hstep := decodeStep_dims folder w h st ref (hl ref (List.mem_cons_self _ _)) hst
    by_cases hl0 : l = []
    · subst hl0
      simpa using hstep
    · rw [List.foldl_cons]
      exact ih _ (fun r hr => hl r (List.mem_cons_of_mem _ hr)) hl0 (Or.inr hstep)

theorem flatten_length_of_uniform (n : ℕ) (ss : List (List Uint16))
    (h : ∀ s ∈ ss, s.length = n) : ss.flatten.length = ss.length * n := by
  induction ss with
  | nil => simp
  | cons s ss ih =>
    rw [List.flatten_cons, List.length_append, List.length_cons,
      ih (fun t ht => h t (List.mem_cons_of_mem _ ht)), h s (List.mem_cons_self _ _)]
    ring

theorem filterMap_decodeSlice_uniform (folder : Folder) (w h : Uint16) (l : List (ℤ × String))
    (hl : ∀ ref ∈ l, Decodes folder w h ref) :
    (l.filterMap (decodeSlice folder)).length = l.length ∧
      ∀ s ∈ l.filterMap (decodeSlice folder), s.length = w.val * h.val := by
  induction l with
  | nil => simp
  | cons ref l ih =>
    obtain ⟨slice, hs, hlen⟩ := decodeSlice_length folder w h ref (hl ref (List.mem_cons_self _ _))
    obtain ⟨ih1, ih2⟩ := ih (fun r hr => hl r (List.mem_cons_of_mem _ hr))
    rw [List.filterMap_cons, hs]
    refine ⟨by simp [ih1], ?_⟩
    intro s hmem
    rcases List.mem_cons.1 hmem with rfl | hmem
    · exact hlen
    · exact ih2 s hmem

/-- C2 (as stated, refuted): a folder of two decodable slices, 1 x 1 and 2 x 2,
yields a non-empty buffer of 5 bytes with `width * height * depth = 2`. -/
theorem buffer_length_mismatch :
    (loadDICOMVolume mixedFolder).data ≠ [] ∧
      (loadDICOMVolume mixedFolder).data.length = 5 ∧
      (loadDICOMVolume mixedFolder).width * (loadDICOMVolume mixedFolder).height *
        (loadDICOMVolume mixedFolder).depth = 2 := by
  decide!

/-- C2 (amended): when every indexed file has pixel data and all of them have
the same columns `w` and rows `h` (with at least `w * h` samples), the returned
volume satisfies `data.size() == width * height * depth`. -/
theorem buffer_length_uniform (folder : Folder) (w h : Uint16)
    (hall : ∀ ref ∈ indexPass folder, Decodes folder w h ref) :
    (loadDICOMVolume folder).data.length =
      (loadDICOMVolume folder).width * (loadDICOMVolume folder).height *
        (loadDICOMVolume folder).depth := by
  have hsorted : ∀ ref ∈ sortSlices (indexPass folder), Decodes folder w h ref :=
    fun ref hr => hall ref ((sortSlices_perm _).mem_iff.1 hr)
  obtain ⟨hcount, hlen⟩ := filterMap_decodeSlice_uniform folder w h _ hsorted
  have hdata : (loadDICOMVolume folder).data =
      rescale (decodePass folder (sortSlices (indexPass folder))) := rfl
  have hwidth : (loadDICOMVolume folder).width =
      (decodePass folder (sortSlices (indexPass folder))).width := rfl
  have hheight : (loadDICOMVolume folder).height =
      (decodePass folder (sortSlices (indexPass folder))).height := rfl
  have hdepth : (loadDICOMVolume folder).depth = (sortSlices (indexPass folder)).length := rfl
  rw [hdata, hwidth, hheight, hdepth]
  unfold rescale
  rw [List.length_map, decodePass_rawSlices, flatten_length_of_uniform _ _ hlen, hcount]
  by_cases hne : sortSlices (indexPass folder) = []
  · simp [hne]
  · unfold decodePass
    rw [foldl_decodeStep_dims folder w h _ _ hsorted hne (Or.inl rfl)]
    ring

/-! ## Evaluations on sample folders -/

theorem buffer_length_uniform_witness :
    (∀ ref ∈ indexPass uniformFolder, Decodes uniformFolder 2 1 ref) ∧
      (loadDICOMVolume uniformFolder).data.length =
        (loadDICOMVolume uniformFolder).width * (loadDICOMVolume uniformFolder).height *
          (loadDICOMVolume uniformFolder).depth :=
  have hall : ∀ ref ∈ indexPass uniformFolder, Decodes uniformFolder 2 1 ref := by
    have hidx : indexPass uniformFolder = [(2, "scan/2.dcm"), (1, "scan/1.dcm")] := by decide!
    rw [hidx]
    intro ref href
    rcases List.mem_cons.1 href with rfl | href
    · exact ⟨sliceFile 2 2 1 [30, 40], [30, 40], by decide!, rfl, rfl, rfl, by decide⟩
    · rcases List.mem_cons.1 href with rfl | href
      · exact ⟨sliceFile 1 2 1 [10, 20], [10, 20], by decide!, rfl, rfl, rfl, by decide⟩
      · exact absurd href (List.not_mem_nil _)
  ⟨hall, buffer_length_uniform uniformFolder 2 1 hall⟩

/-- C3: on a folder with three slices that decode, a text file and a `.dcm` file
that loads but has no pixel data, the returned depth is 4 although only 3
slices were decoded (and only 3 bytes packed). -/
theorem depth_counts_skipped_file :
    (loadDICOMVolume skipFolder).depth = 4 ∧
      (decodePass skipFolder (sortSlices (indexPass skipFolder))).rawSlices.length = 3 ∧
      (loadDICOMVolume skipFolder).data.length = 3 := by
  decide!

/-- C1: on one slice with the samples 0 and 25 (`minVal = 0`, `maxVal = 25`) the
sample equal to `maxVal` is stored as the byte 254, not 255. -/
theorem max_sample_maps_to_254 :
    (decodePass rangeFolder (sortSlices (indexPass rangeFolder))).minVal = 0 ∧
      (decodePass rangeFolder (sortSlices (indexPass rangeFolder))).maxVal = 25 ∧
      (loadDICOMVolume rangeFolder).data = [0, 254] := by
  decide!

/-- C5: with no texture loaded, the key-L command on a folder whose volume is
empty appends the handle `GLuint(-1)` to `textures` and sets `activeView` to 0:
the session is not left unchanged. -/
theorem failed_load_changes_session :
    (loadDICOMVolume emptyFolder).data = [] ∧
      processInput (Input.loadVolume emptyFolder 7) Session.init =
        { Session.init with textures := [4294967295], activeView := 0 } ∧
      processInput (Input.loadVolume emptyFolder 7) Session.init ≠ Session.init := by
  decide!

/-! ## Properties of the rounding functions -/

theorem rne_bounds (x : ℚ) : ⌊x⌋ ≤ rne x ∧ rne x ≤ ⌊x⌋ + 1 := by
  unfold rne
  simp only
  split_ifs <;> constructor <;> omega

theorem rne_intCast (n : ℤ) : rne (n : ℚ) = n := by
  unfold rne
  simp

theorem rne_mono {x y : ℚ} (hxy : x ≤ y) : rne x ≤ rne y := by
  have hfl : ⌊x⌋ ≤ ⌊y⌋ := Int.floor_mono hxy
  rcases lt_or_eq_of_le hfl with hlt | heq
  · have h1 := (rne_bounds x).2
    have h2 := (rne_bounds y).1
    omega
  · have hq : (⌊x⌋ : ℚ) = (⌊y⌋ : ℚ) := by rw [heq]
    unfold rne
    simp only
    split_ifs <;> first | omega | (exfalso; linarith)

theorem bitLength_zero (fuel : ℕ) : bitLength fuel 0 = 0 := by
  cases fuel <;> simp [bitLength]

theorem bitLength_spec (fuel n : ℕ) (hn : 0 < n) (hf : n ≤ fuel) :
    2 ^ bitLength fuel n ≤ 2 * n ∧ n < 2 ^ bitLength fuel n := by
  induction fuel generalizing n with
  | zero => omega
  | succ fuel ih =>
    have hne : n ≠ 0 := by omega
    simp only [bitLength, hne, if_false]
    by_cases h2 : n / 2 = 0
    · have h1 : n = 1 := by omega
      subst h1
      simp [bitLength_zero]
    · obtain ⟨ih1, ih2⟩ := ih (n / 2) (by omega) (by omega)
      rw [pow_succ]
      constructor <;> omega

theorem abs_eq_natAbs_div_den (q : ℚ) : |q| = (q.num.natAbs : ℚ) / (q.den : ℚ) := by
  have h := Rat.num_div_den q
  have hd : (0 : ℚ) < (q.den : ℚ) := by exact_mod_cast q.den_pos
  conv_lhs => rw [← h]
  rw [abs_div, abs_of_pos hd]
  congr 1
  rw [Nat.cast_natAbs, Int.cast_abs]

theorem ilog2_spec (q : ℚ) (hq : q ≠ 0) :
    (2 : ℚ) ^ ilog2 q ≤ |q| ∧ |q| < (2 : ℚ) ^ (ilog2 q + 1) := by
  have hn : 0 < q.num.natAbs := Int.natAbs_pos.2 (Rat.num_ne_zero.2 hq)
  have hd : 0 < q.den := q.den_pos
  obtain ⟨a1, a2⟩ := bitLength_spec q.num.natAbs q.num.natAbs hn le_rfl
  obtain ⟨b1, b2⟩ := bitLength_spec q.den q.den hd le_rfl
  have hdq : (0 : ℚ) < (q.den : ℚ) := by exact_mod_cast hd
  have a1q : (2 : ℚ) ^ (bitLength q.num.natAbs q.num.natAbs) ≤ 2 * (q.num.natAbs : ℚ) := by
    exact_mod_cast a1
  have a2q : (q.num.natAbs : ℚ) < (2 : ℚ) ^ (bitLength q.num.natAbs q.num.natAbs) := by
    exact_mod_cast a2
  have b1q : (2 : ℚ) ^ (bitLength q.den q.den) ≤ 2 * (q.den : ℚ) := by exact_mod_cast b1
  have b2q : (q.den : ℚ) < (2 : ℚ) ^ (bitLength q.den q.den) := by exact_mod_cast b2
  have habs := abs_eq_natAbs_div_den q
  have h2 : (2 : ℚ) ≠ 0 := by norm_num
  have hpa : (0 : ℚ) < (2 : ℚ) ^ (bitLength q.num.natAbs q.num.natAbs) := by positivity
  have hpb : (0 : ℚ) < (2 : ℚ) ^ (bitLength q.den q.den) := by positivity
  -- bounds of `|q|` against the difference of the bit lengths
  have hlow : (2 : ℚ) ^ (((bitLength q.num.natAbs q.num.natAbs : ℤ) -
      (bitLength q.den q.den : ℤ)) - 1) ≤ |q| := by
    rw [habs, zpow_sub₀ h2, zpow_sub₀ h2, zpow_natCast, zpow_natCast, zpow_one,
      le_div_iff₀ hdq, div_div, div_mul_eq_mul_div, div_le_iff₀ (by positivity)]
    nlinarith
  have hhigh : |q| < (2 : ℚ) ^ (((bitLength q.num.natAbs q.num.natAbs : ℤ) -
      (bitLength q.den q.den : ℤ)) + 1) := by
    rw [habs, zpow_add₀ h2, zpow_sub₀ h2, zpow_natCast, zpow_natCast, zpow_one,
      div_lt_iff₀ hdq, div_mul_eq_mul_div, div_mul_eq_mul_div, lt_div_iff₀ hpb]
    nlinarith
  unfold ilog2
  simp only
  split_ifs with hlt
  · refine ⟨hlow, ?_⟩
    simpa using hlt
  · exact ⟨not_lt.1 hlt, hhigh⟩

theorem ilog2_mono {x y : ℚ} (hx : 0 < x) (hxy : x ≤ y) : ilog2 x ≤ ilog2 y := by
  have hy : 0 < y := lt_of_lt_of_le hx hxy
  obtain ⟨x1, -⟩ := ilog2_spec x (ne_of_gt hx)
  obtain ⟨-, y2⟩ := ilog2_spec y (ne_of_gt hy)
  rw [abs_of_pos hx] at x1
  rw [abs_of_pos hy] at y2
  have hlt : (2 : ℚ) ^ ilog2 x < (2 : ℚ) ^ (ilog2 y + 1) := lt_of_le_of_lt (le_trans x1 hxy) y2
  have := (zpow_lt_zpow_iff_right₀ (by norm_num : (1 : ℚ) < 2)).1 hlt
  omega

theorem roundFloat_nonneg (p : ℕ) (emin : ℤ) {x : ℚ} (hx : 0 ≤ x) :
    0 ≤ roundFloat p emin x := by
  unfold roundFloat
  split_ifs with h0
  · exact le_rfl
  · have hpos : (0 : ℚ) < (2 : ℚ) ^ ulpExp p emin x := by positivity
    have hfl : (0 : ℤ) ≤ ⌊x / (2 : ℚ) ^ ulpExp p emin x⌋ := Int.floor_nonneg.2 (by positivity)
    have hr : (0 : ℤ) ≤ rne (x / (2 : ℚ) ^ ulpExp p emin x) := le_trans hfl (rne_bounds _).1
    have : (0 : ℚ) ≤ (rne (x / (2 : ℚ) ^ ulpExp p emin x) : ℚ) := by exact_mod_cast hr
    positivity

theorem roundFloat_nonpos (p : ℕ) (emin : ℤ) {x : ℚ} (hx : x ≤ 0) :
    roundFloat p emin x ≤ 0 := by
  unfold roundFloat
  split_ifs with h0
  · exact le_rfl
  · have hpos : (0 : ℚ) < (2 : ℚ) ^ ulpExp p emin x := by positivity
    have hdiv : x / (2 : ℚ) ^ ulpExp p emin x ≤ ((0 : ℤ) : ℚ) := by
      rw [Int.cast_zero]
      exact div_nonpos_of_nonpos_of_nonneg hx (le_of_lt hpos)
    have hr : rne (x / (2 : ℚ) ^ ulpExp p emin x) ≤ 0 := by
      have := rne_mono hdiv
      rwa [rne_intCast] at this
    have : (rne (x / (2 : ℚ) ^ ulpExp p emin x) : ℚ) ≤ 0 := by exact_mod_cast hr
    exact mul_nonpos_of_nonpos_of_nonneg this (le_of_lt hpos)

/-- Upper bound: a positive `x` rounds to at most the next power of two. -/
theorem roundFloat_le_pow (p : ℕ) (emin : ℤ) {x : ℚ} (hx : 0 < x) :
    roundFloat p emin x ≤ (2 : ℚ) ^ (max (ilog2 x) emin + 1) := by
  have h0 : x ≠ 0 := ne_of_gt hx
  have h2 : (2 : ℚ) ≠ 0 := by norm_num
  obtain ⟨-, hx2⟩ := ilog2_spec x h0
  rw [abs_of_pos hx] at hx2
  have hpos : (0 : ℚ) < (2 : ℚ) ^ ulpExp p emin x := by positivity
  have hle : (2 : ℚ) ^ (ilog2 x + 1) ≤ (2 : ℚ) ^ (max (ilog2 x) emin + 1) :=
    zpow_le_zpow_right₀ (by norm_num) (by omega)
  have hsplit : (2 : ℚ) ^ (max (ilog2 x) emin + 1) =
      (((2 : ℤ) ^ p : ℤ) : ℚ) * (2 : ℚ) ^ ulpExp p emin x := by
    unfold ulpExp
    rw [Int.cast_pow, Int.cast_ofNat, ← zpow_natCast, ← zpow_add₀ h2]
    congr 1
    ring
  have hdiv : x / (2 : ℚ) ^ ulpExp p emin x ≤ (((2 : ℤ) ^ p : ℤ) : ℚ) := by
    rw [div_le_iff₀ hpos, ← hsplit]
    exact le_of_lt (lt_of_lt_of_le hx2 hle)
  have hr : rne (x / (2 : ℚ) ^ ulpExp p emin x) ≤ (2 : ℤ) ^ p := by
    have := rne_mono hdiv
    rwa [rne_intCast] at this
  unfold roundFloat
  rw [if_neg h0, hsplit]
  have : (rne (x / (2 : ℚ) ^ ulpExp p emin x) : ℚ) ≤ (((2 : ℤ) ^ p : ℤ) : ℚ) := by
    exact_mod_cast hr
  exact mul_le_mul_of_nonneg_right this (le_of_lt hpos)

/-- Lower bound: a positive `y` in the normal range rounds to at least the
power of two below it. -/
theorem pow_le_roundFloat (p : ℕ) (emin : ℤ) (hp : 1 ≤ p) {y : ℚ} (hy : 0 < y)
    (hnorm : emin ≤ ilog2 y) : (2 : ℚ) ^ ilog2 y ≤ roundFloat p emin y := by
  have h0 : y ≠ 0 := ne_of_gt hy
  have h2 : (2 : ℚ) ≠ 0 := by norm_num
  obtain ⟨hy1, -⟩ := ilog2_spec y h0
  rw [abs_of_pos hy] at hy1
  have hpos : (0 : ℚ) < (2 : ℚ) ^ ulpExp p emin y := by positivity
  have hsplit : (2 : ℚ) ^ ilog2 y =
      (((2 : ℤ) ^ (p - 1) : ℤ) : ℚ) * (2 : ℚ) ^ ulpExp p emin y := by
    unfold ulpExp
    rw [Int.cast_pow, Int.cast_ofNat, ← zpow_natCast, ← zpow_add₀ h2, max_eq_left hnorm]
    congr 1
    have : ((p - 1 : ℕ) : ℤ) = (p : ℤ) - 1 := by omega
    rw [this]
    ring
  have hdiv : (((2 : ℤ) ^ (p - 1) : ℤ) : ℚ) ≤ y / (2 : ℚ) ^ ulpExp p emin y := by
    rw [le_div_iff₀ hpos, ← hsplit]
    exact hy1
  have hr : (2 : ℤ) ^ (p - 1) ≤ rne (y / (2 : ℚ) ^ ulpExp p emin y) := by
    have := rne_mono hdiv
    rwa [rne_intCast] at this
  unfold roundFloat
  rw [if_neg h0, hsplit]
  have : (((2 : ℤ) ^ (p - 1) : ℤ) : ℚ) ≤ (rne (y / (2 : ℚ) ^ ulpExp p emin y) : ℚ) := by
    exact_mod_cast hr
  exact mul_le_mul_of_nonneg_right this (le_of_lt hpos)

/-- Rounding is monotone on the positive rationals. -/
theorem roundFloat_mono (p : ℕ) (emin : ℤ) (hp : 1 ≤ p) {x y : ℚ} (hx : 0 < x) (hxy : x ≤ y) :
    roundFloat p emin x ≤ roundFloat p emin y := by
  have hy : 0 < y := lt_of_lt_of_le hx hxy
  have hlog := ilog2_mono hx hxy
  by_cases he : max (ilog2 x) emin = max (ilog2 y) emin
  · have hu : ulpExp p emin x = ulpExp p emin y := by
      unfold ulpExp
      rw [he]
    have hpos : (0 : ℚ) < (2 : ℚ) ^ ulpExp p emin y := by positivity
    unfold roundFloat
    rw [if_neg (ne_of_gt hx), if_neg (ne_of_gt hy), hu]
    have hdiv : x / (2 : ℚ) ^ ulpExp p emin y ≤ y / (2 : ℚ) ^ ulpExp p emin y :=
      div_le_div_of_nonneg_right hxy (le_of_lt hpos)
    have : (rne (x / (2 : ℚ) ^ ulpExp p emin y) : ℚ) ≤ (rne (y / (2 : ℚ) ^ ulpExp p emin y) : ℚ) := by
      exact_mod_cast rne_mono hdiv
    exact mul_le_mul_of_nonneg_right this (le_of_lt hpos)
  · have hlt : max (ilog2 x) emin + 1 ≤ ilog2 y := by
      rw [max_def, max_def] at he
      rw [max_def]
      split_ifs at he ⊢ <;> omega
    have hnorm : emin ≤ ilog2 y := by
      have := le_max_right (ilog2 x) emin
      omega
    calc roundFloat p emin x ≤ (2 : ℚ) ^ (max (ilog2 x) emin + 1) := roundFloat_le_pow p emin hx
      _ ≤ (2 : ℚ) ^ ilog2 y := zpow_le_zpow_right₀ (by norm_num) hlt
      _ ≤ roundFloat p emin y := pow_le_roundFloat p emin hp hy hnorm

/-! ## The view session -/

theorem f32_one : f32 1 = 1 := by decide!

theorem f32_five : f32 5 = 5 := by decide!

theorem f32_fifth_fixed : f32 (f32 (1 / 5)) = f32 (1 / 5) := by decide!

theorem f32_consts :
    (0 : ℚ) < f32 (1 / 100) ∧ (1 : ℚ) ≤ f32 (105 / 100) ∧ (0 : ℚ) < f32 (95 / 100) ∧
      f32 (95 / 100) ≤ 1 ∧ (0 : ℚ) < f32 (1 / 5) ∧ f32 (1 / 5) ≤ 5 ∧ (1 / 5 : ℚ) ≤ f32 (1 / 5) := by
  decide!

theorem f32_fifth_le_one : f32 (1 / 5) ≤ 1 := by decide!

theorem f32_mono {x y : ℚ} (hx : 0 < x) (hxy : x ≤ y) : f32 x ≤ f32 y :=
  roundFloat_mono 24 (-126) (by norm_num) hx hxy

theorem sliceUp_range {z : ℚ} (hz : 0 ≤ z ∧ z ≤ 1) : 0 ≤ sliceUp z ∧ sliceUp z ≤ 1 := by
  have hc := f32_consts.1
  have h0 : 0 ≤ f32 (z + f32 (1 / 100)) := roundFloat_nonneg 24 (-126) (by linarith [hz.1])
  unfold sliceUp stdMin
  split_ifs with h
  · exact ⟨by norm_num, le_rfl⟩
  · exact ⟨h0, not_lt.1 h⟩

theorem sliceDown_range {z : ℚ} (hz : 0 ≤ z ∧ z ≤ 1) : 0 ≤ sliceDown z ∧ sliceDown z ≤ 1 := by
  have hc := f32_consts.1
  have h1 : f32 (z - f32 (1 / 100)) ≤ 1 := by
    rcases le_or_lt (z - f32 (1 / 100)) 0 with hneg | hpos
    · exact le_trans (roundFloat_nonpos 24 (-126) hneg) (by norm_num)
    · have := f32_mono hpos (by linarith [hz.2] : z - f32 (1 / 100) ≤ 1)
      rwa [f32_one] at this
  unfold sliceDown stdMax
  split_ifs with h
  · exact ⟨le_rfl, by norm_num⟩
  · exact ⟨not_lt.1 h, h1⟩

theorem zoomIn_range {z : ℚ} (hz : f32 (1 / 5) ≤ z ∧ z ≤ 5) :
    f32 (1 / 5) ≤ zoomIn z ∧ zoomIn z ≤ 5 := by
  obtain ⟨-, ha, -, -, hl0, hl5, -⟩ := f32_consts
  have hlow : f32 (1 / 5) ≤ f32 (z * f32 (105 / 100)) := by
    have hmul : f32 (1 / 5) ≤ z * f32 (105 / 100) := by nlinarith [hz.1]
    have := f32_mono hl0 hmul
    rwa [f32_fifth_fixed] at this
  unfold zoomIn stdMin
  split_ifs with h
  · exact ⟨hl5, le_rfl⟩
  · exact ⟨hlow, not_lt.1 h⟩

theorem zoomOut_range {z : ℚ} (hz : f32 (1 / 5) ≤ z ∧ z ≤ 5) :
    f32 (1 / 5) ≤ zoomOut z ∧ zoomOut z ≤ 5 := by
  obtain ⟨-, -, hb0, hb1, hl0, hl5, -⟩ := f32_consts
  have hzpos : 0 < z := lt_of_lt_of_le hl0 hz.1
  have hup : f32 (z * f32 (95 / 100)) ≤ 5 := by
    have hmul : z * f32 (95 / 100) ≤ 5 := by nlinarith [hz.2]
    have := f32_mono (mul_pos hzpos hb0) hmul
    rwa [f32_five] at this
  unfold zoomOut stdMax
  split_ifs with h
  · exact ⟨le_rfl, hl5⟩
  · exact ⟨not_lt.1 h, hup⟩

theorem getD_mem (a : List ℚ) (i : ℕ) (hi : i < a.length) : a.getD i 0 ∈ a := by
  rw [List.getD_eq_getElem _ _ hi]
  exact List.getElem_mem hi

theorem updateAt_length (a : List ℚ) (i : ℕ) (f : ℚ → ℚ) : (updateAt a i f).length = a.length := by
  simp [updateAt]

theorem updateAt_forall (P : ℚ → Prop) (a : List ℚ) (i : ℕ) (f : ℚ → ℚ) (hi : i < a.length)
    (ha : ∀ z ∈ a, P z) (hf : ∀ z, P z → P (f z)) : ∀ z ∈ updateAt a i f, P z := by
  intro z hz
  rcases List.mem_or_eq_of_mem_set hz with h | h
  · exact ha z h
  · rw [h]
    exact hf _ (ha _ (getD_mem a i hi))

theorem set_forall (P : ℚ → Prop) (a : List ℚ) (i : ℕ) (v : ℚ)
    (ha : ∀ z ∈ a, P z) (hv : P v) : ∀ z ∈ a.set i v, P z := by
  intro z hz
  rcases List.mem_or_eq_of_mem_set hz with h | h
  · exact ha z h
  · rw [h]
    exact hv

/-- The function `processInput` as the composition of its key tests. -/
theorem processInput_eq (inp : Input) (s : Session) :
    processInput inp s =
      onLoad inp (onZoom inp.keyU zoomOut (onZoom inp.keyJ zoomIn
        (onSlice inp.keyS sliceDown (onSlice inp.keyW sliceUp
          (onSelect inp.key4 3 (onSelect inp.key3 2 (onSelect inp.key2 1 (onSelect inp.key1 0
            (onEscape inp.escape s))))))))) := rfl

theorem valid_onEscape (s : Session) (c : Bool) (h : s.Valid) : (onEscape c s).Valid := by
  unfold onEscape
  split_ifs
  · exact h
  · exact h

theorem valid_onSelect (s : Session) (k : ℕ) (hk : k ≤ 3) (c : Bool) (h : s.Valid) :
    (onSelect c k s).Valid := by
  unfold onSelect
  split_ifs
  · obtain ⟨h1, -, h3, h4, h5, h6, h7⟩ := h
    exact ⟨h1, hk, h3, h4, h5, h6, h7⟩
  · exact h

theorem valid_onSlice (s : Session) (f : ℚ → ℚ)
    (hf : ∀ z, (0 ≤ z ∧ z ≤ 1) → (0 ≤ f z ∧ f z ≤ 1)) (c : Bool) (h : s.Valid) :
    (onSlice c f s).Valid := by
  unfold onSlice
  split_ifs
  · obtain ⟨h1, h2, h3, h4, h5, h6, h7⟩ := h
    refine ⟨h1, h2, ?_, ?_, h5, h6, h7⟩
    · show (updateAt _ _ _).length = 4
      rw [updateAt_length, h3]
    · exact updateAt_forall _ _ _ _ (by omega) h4 hf
  · exact h

theorem valid_onZoom (s : Session) (f : ℚ → ℚ)
    (hf : ∀ z, (f32 (1 / 5) ≤ z ∧ z ≤ 5) → (f32 (1 / 5) ≤ f z ∧ f z ≤ 5))
    (c : Bool) (h : s.Valid) : (onZoom c f s).Valid := by
  unfold onZoom
  split_ifs
  · obtain ⟨h1, h2, h3, h4, h5, h6, h7⟩ := h
    refine ⟨h1, h2, h3, h4, ?_, ?_, h7⟩
    · show (updateAt _ _ _).length = 4
      rw [updateAt_length, h5]
    · exact updateAt_forall _ _ _ _ (by omega) h6 hf
  · exact h

theorem valid_loadBlock (inp : Input) (s : Session) (h : s.Valid) : (loadBlock inp s).Valid := by
  obtain ⟨h1, h2, h3, h4, h5, h6, h7⟩ := h
  obtain ⟨-, -, -, -, hl0, hl5, -⟩ := f32_consts
  unfold loadBlock
  cases inp.picked with
  | none => exact ⟨h1, h2, h3, h4, h5, h6, h7⟩
  | some folder =>
    simp only
    split_ifs with hlen
    · refine ⟨?_, ?_, ?_, ?_, ?_, ?_, h7⟩
      · show (s.textures ++ [_]).length ≤ 4
        rw [List.length_append, List.length_singleton]
        omega
      · show s.textures.length ≤ 3
        omega
      · show (s.sliceZs.set _ _).length = 4
        rw [List.length_set, h3]
      · exact set_forall _ _ _ _ h4 (by norm_num)
      · show (s.zoomLevels.set _ _).length = 4
        rw [List.length_set, h5]
      · exact set_forall _ _ _ _ h6 ⟨f32_fifth_le_one, by norm_num⟩
    · refine ⟨?_, h2, ?_, ?_, ?_, ?_, h7⟩
      · show (s.textures.set _ _).length ≤ 4
        rw [List.length_set]
        exact h1
      · show (s.sliceZs.set _ _).length = 4
        rw [List.length_set, h3]
      · exact set_forall _ _ _ _ h4 (by norm_num)
      · show (s.zoomLevels.set _ _).length = 4
        rw [List.length_set, h5]
      · exact set_forall _ _ _ _ h6 ⟨f32_fifth_le_one, by norm_num⟩

theorem valid_onLoad (inp : Input) (s : Session) (h : s.Valid) : (onLoad inp s).Valid := by
  unfold onLoad
  split_ifs
  · exact valid_loadBlock inp s h
  · exact h

theorem processInput_valid (inp : Input) (s : Session) (h : s.Valid) :
    (processInput inp s).Valid := by
  rw [processInput_eq]
  have h0 := valid_onEscape s inp.escape h
  have h1 := valid_onSelect _ 0 (by norm_num) inp.key1 h0
  have h2 := valid_onSelect _ 1 (by norm_num) inp.key2 h1
  have h3 := valid_onSelect _ 2 (by norm_num) inp.key3 h2
  have h4 := valid_onSelect _ 3 (by norm_num) inp.key4 h3
  have h5 := valid_onSlice _ sliceUp (fun _ hz => sliceUp_range hz) inp.keyW h4
  have h6 := valid_onSlice _ sliceDown (fun _ hz => sliceDown_range hz) inp.keyS h5
  have h7 := valid_onZoom _ zoomIn (fun _ hz => zoomIn_range hz) inp.keyJ h6
  have h8 := valid_onZoom _ zoomOut (fun _ hz => zoomOut_range hz) inp.keyU h7
  exact valid_onLoad inp _ h8

theorem loadBlock_textures_length (inp : Input) (s : Session) :
    s.textures.length ≤ (loadBlock inp s).textures.length := by
  unfold loadBlock
  cases inp.picked with
  | none => exact le_rfl
  | some folder =>
    simp only
    split_ifs with hlen
    · show _ ≤ (s.textures ++ [_]).length
      rw [List.length_append]
      omega
    · show _ ≤ (s.textures.set _ _).length
      rw [List.length_set]

theorem onEscape_textures (c : Bool) (s : Session) : (onEscape c s).textures = s.textures := by
  unfold onEscape
  split_ifs <;> rfl

theorem onSelect_textures (c : Bool) (k : ℕ) (s : Session) :
    (onSelect c k s).textures = s.textures := by
  unfold onSelect
  split_ifs <;> rfl

theorem onSlice_textures (c : Bool) (f : ℚ → ℚ) (s : Session) :
    (onSlice c f s).textures = s.textures := by
  unfold onSlice
  split_ifs <;> rfl

theorem onZoom_textures (c : Bool) (f : ℚ → ℚ) (s : Session) :
    (onZoom c f s).textures = s.textures := by
  unfold onZoom
  split_ifs <;> rfl

theorem processInput_textures_length (inp : Input) (s : Session) :
    s.textures.length ≤ (processInput inp s).textures.length := by
  rw [processInput_eq]
  unfold onLoad
  split_ifs
  · refine le_trans (le_of_eq ?_) (loadBlock_textures_length inp _)
    rw [onZoom_textures, onZoom_textures, onSlice_textures, onSlice_textures, onSelect_textures,
      onSelect_textures, onSelect_textures, onSelect_textures, onEscape_textures]
  · rw [onZoom_textures, onZoom_textures, onSlice_textures, onSlice_textures, onSelect_textures,
      onSelect_textures, onSelect_textures, onSelect_textures, onEscape_textures]

theorem run_append (xs ys : List Input) (s : Session) :
    run (xs ++ ys) s = run ys (run xs s) := by
  simp [run, List.foldl_append]

theorem run_valid (inputs : List Input) (s : Session) (h : s.Valid) : (run inputs s).Valid := by
  induction inputs generalizing s with
  | nil => exact h
  | cons inp inputs ih => exact ih _ (processInput_valid inp s h)

theorem run_textures_length (inputs : List Input) (s : Session) :
    s.textures.length ≤ (run inputs s).textures.length := by
  induction inputs generalizing s with
  | nil => exact le_rfl
  | cons inp inputs ih => exact le_trans (processInput_textures_length inp s) (ih _)

theorem init_valid : Session.init.Valid := by
  refine ⟨by decide, by decide, rfl, ?_, rfl, ?_, rfl⟩
  · intro z hz
    simp only [Session.init, List.mem_cons, List.mem_singleton, List.not_mem_nil, or_false,
      or_self] at hz
    subst hz
    norm_num
  · intro z hz
    simp only [Session.init, List.mem_cons, List.mem_singleton, List.not_mem_nil, or_false,
      or_self] at hz
    subst hz
    exact ⟨f32_fifth_le_one, by norm_num⟩

/-- C8: in every state reached from the initial state by a finite sequence of
`processInput` calls (any keys, so in particular the commands SelectSlot,
IncreaseSlice, DecreaseSlice, ZoomIn, ZoomOut, LoadVolume), there are at most 4
textures and their number never decreases afterwards, `activeView` is in
[0, 3], each of the four slice depths is in [0, 1], each of the four zoom
levels is in [0.2, 5.0], and each zoom centre is (0.5, 0.5). -/
theorem session_ranges (inputs : List Input) :
    (run inputs Session.init).textures.length ≤ 4 ∧
      (∀ more : List Input, (run inputs Session.init).textures.length ≤
        (run (inputs ++ more) Session.init).textures.length) ∧
      (run inputs Session.init).activeView ≤ 3 ∧
      (run inputs Session.init).sliceZs.length = 4 ∧
      (∀ z ∈ (run inputs Session.init).sliceZs, 0 ≤ z ∧ z ≤ 1) ∧
      (run inputs Session.init).zoomLevels.length = 4 ∧
      (∀ z ∈ (run inputs Session.init).zoomLevels, 1 / 5 ≤ z ∧ z ≤ 5) ∧
      (run inputs Session.init).zoomCenters.length = 4 ∧
      (∀ c ∈ (run inputs Session.init).zoomCenters, c = (1 / 2, 1 / 2)) := by
  obtain ⟨h1, h2, h3, h4, h5, h6, h7⟩ := run_valid inputs Session.init init_valid
  refine ⟨h1, ?_, h2, h3, h4, h5, ?_, ?_, ?_⟩
  · intro more
    rw [run_append]
    exact run_textures_length more _
  · intro z hz
    exact ⟨le_trans f32_consts.2.2.2.2.2.2 (h6 z hz).1, (h6 z hz).2⟩
  · rw [h7]
    rfl
  · rw [h7]
    intro c hc
    simp only [List.mem_cons, List.mem_singleton, List.not_mem_nil, or_false, or_self] at hc
    exact hc

/-! ## Loading volumes into the four slots -/

theorem loadNewVolume_of_nonempty (folder : Folder) (texID : ℕ)
    (h : (loadDICOMVolume folder).data ≠ []) : loadNewVolume folder texID = texID := by
  unfold loadNewVolume upload3DTexture
  simp [h]

theorem processInput_loadVolume (folder : Folder) (texID : ℕ) (s : Session) :
    processInput (Input.loadVolume folder texID) s =
      loadBlock (Input.loadVolume folder texID) s := rfl

/-- C6: from the initial state, four successful key-L loads leave the textures
of volumes 1, 2, 3, 4 in slots 0 to 3; a fifth successful load, with no slot
selection in between, replaces slot 3 only: the slots then hold the textures
of volumes 1, 2, 3, 5, with `activeView = 3` and still 4 textures. -/
theorem five_loads_fill_slots (f1 f2 f3 f4 f5 : Folder) (t1 t2 t3 t4 t5 : ℕ)
    (h1 : (loadDICOMVolume f1).data ≠ []) (h2 : (loadDICOMVolume f2).data ≠ [])
    (h3 : (loadDICOMVolume f3).data ≠ []) (h4 : (loadDICOMVolume f4).data ≠ [])
    (h5 : (loadDICOMVolume f5).data ≠ []) :
    (run [Input.loadVolume f1 t1, Input.loadVolume f2 t2, Input.loadVolume f3 t3,
        Input.loadVolume f4 t4] Session.init).textures = [t1, t2, t3, t4] ∧
      (run [Input.loadVolume f1 t1, Input.loadVolume f2 t2, Input.loadVolume f3 t3,
        Input.loadVolume f4 t4, Input.loadVolume f5 t5] Session.init).textures =
          [t1, t2, t3, t5] ∧
      (run [Input.loadVolume f1 t1, Input.loadVolume f2 t2, Input.loadVolume f3 t3,
        Input.loadVolume f4 t4, Input.loadVolume f5 t5] Session.init).activeView = 3 ∧
      (run [Input.loadVolume f1 t1, Input.loadVolume f2 t2, Input.loadVolume f3 t3,
        Input.loadVolume f4 t4, Input.loadVolume f5 t5] Session.init).textures.length = 4 := by
  simp only [run, List.foldl, processInput_loadVolume]
  simp [loadBlock, Input.loadVolume, Input.idle, loadNewVolume_of_nonempty, h1, h2, h3, h4, h5,
    Session.init]

theorem five_loads_fill_slots_witness :
    (loadDICOMVolume uniformFolder).data ≠ [] ∧
      (run [Input.loadVolume uniformFolder 11, Input.loadVolume uniformFolder 12,
        Input.loadVolume uniformFolder 13, Input.loadVolume uniformFolder 14] Session.init).textures
          = [11, 12, 13, 14] ∧
      (run [Input.loadVolume uniformFolder 11, Input.loadVolume uniformFolder 12,
        Input.loadVolume uniformFolder 13, Input.loadVolume uniformFolder 14,
        Input.loadVolume uniformFolder 15] Session.init).textures = [11, 12, 13, 15] ∧
      (run [Input.loadVolume uniformFolder 11, Input.loadVolume uniformFolder 12,
        Input.loadVolume uniformFolder 13, Input.loadVolume uniformFolder 14,
        Input.loadVolume uniformFolder 15] Session.init).activeView = 3 ∧
      (run [Input.loadVolume uniformFolder 11, Input.loadVolume uniformFolder 12,
        Input.loadVolume uniformFolder 13, Input.loadVolume uniformFolder 14,
        Input.loadVolume uniformFolder 15] Session.init).textures.length = 4 :=
  have hne : (loadDICOMVolume uniformFolder).data ≠ [] := by decide!
  ⟨hne, five_loads_fill_slots uniformFolder uniformFolder uniformFolder uniformFolder
    uniformFolder 11 12 13 14 15 hne hne hne hne hne⟩

/-! ## Saturation of the slice and zoom updates -/

theorem updates_saturate :
    zoomIn^[200] 1 = 5 ∧ zoomOut^[200] 1 = f32 (1 / 5) ∧
      sliceUp^[200] (1 / 2) = 1 ∧ sliceDown^[200] (1 / 2) = 0 := by
  decide!

theorem updateAt_getD (a : List ℚ) (i : ℕ) (f : ℚ → ℚ) (hi : i < a.length) :
    (updateAt a i f).getD i 0 = f (a.getD i 0) := by
  unfold updateAt
  rw [List.getD_eq_getElem _ _ (by rw [List.length_set]; exact hi), List.getElem_set_self]

theorem iterate_onZoom (f : ℚ → ℚ) (n : ℕ) (s : Session) (hi : s.activeView < s.zoomLevels.length) :
    ((onZoom true f)^[n] s).zoomLevels.getD s.activeView 0 =
      f^[n] (s.zoomLevels.getD s.activeView 0) := by
  induction n generalizing s with
  | zero => rfl
  | succ n ih =>
    rw [Function.iterate_succ_apply, Function.iterate_succ_apply]
    have hstep : onZoom true f s =
        { s with zoomLevels := updateAt s.zoomLevels s.activeView f } := rfl
    have hview : (onZoom true f s).activeView = s.activeView := rfl
    have hlen : (onZoom true f s).activeView < (onZoom true f s).zoomLevels.length := by
      rw [hstep]
      show s.activeView < (updateAt _ _ _).length
      rw [updateAt_length]
      exact hi
    have := ih (onZoom true f s) hlen
    rw [hview] at this
    rw [this, hstep]
    show f^[n] ((updateAt _ _ _).getD _ 0) = _
    rw [updateAt_getD _ _ _ hi]

theorem iterate_onSlice (f : ℚ → ℚ) (n : ℕ) (s : Session) (hi : s.activeView < s.sliceZs.length) :
    ((onSlice true f)^[n] s).sliceZs.getD s.activeView 0 =
      f^[n] (s.sliceZs.getD s.activeView 0) := by
  induction n generalizing s with
  | zero => rfl
  | succ n ih =>
    rw [Function.iterate_succ_apply, Function.iterate_succ_apply]
    have hstep : onSlice true f s =
        { s with sliceZs := updateAt s.sliceZs s.activeView f } := rfl
    have hview : (onSlice true f s).activeView = s.activeView := rfl
    have hlen : (onSlice true f s).activeView < (onSlice true f s).sliceZs.length := by
      rw [hstep]
      show s.activeView < (updateAt _ _ _).length
      rw [updateAt_length]
      exact hi
    have := ih (onSlice true f s) hlen
    rw [hview] at this
    rw [this, hstep]
    show f^[n] ((updateAt _ _ _).getD _ 0) = _
    rw [updateAt_getD _ _ _ hi]

theorem run_replicate (inp : Input) (n : ℕ) (s : Session) :
    run (List.replicate n inp) s = (processInput inp)^[n] s := by
  induction n generalizing s with
  | zero => rfl
  | succ n ih =>
    rw [List.replicate_succ, Function.iterate_succ_apply]
    exact ih _

theorem processInput_zoomIn : processInput Input.zoomIn = onZoom true zoomIn := rfl

theorem processInput_zoomOut : processInput Input.zoomOut = onZoom true zoomOut := rfl

theorem processInput_increaseSlice : processInput Input.increaseSlice = onSlice true sliceUp := rfl

theorem processInput_decreaseSlice : processInput Input.decreaseSlice = onSlice true sliceDown :=
  rfl

/-- C7: when the active slot has zoom level 1.0, 200 consecutive ZoomIn commands
leave its zoom level exactly 5.0 and 200 consecutive ZoomOut commands leave it
exactly 0.2 (the float `0.2f`); when it has slice depth 0.5, 200 consecutive
IncreaseSlice commands leave its depth exactly 1.0 and 200 consecutive
DecreaseSlice commands exactly 0.0. -/
theorem saturation_after_200 (s : Session) (hv : s.activeView < 4)
    (hs : s.sliceZs.length = 4) (hz : s.zoomLevels.length = 4) :
    (s.zoomLevels.getD s.activeView 0 = 1 →
        (run (List.replicate 200 Input.zoomIn) s).zoomLevels.getD s.activeView 0 = 5 ∧
        (run (List.replicate 200 Input.zoomOut) s).zoomLevels.getD s.activeView 0 = f32 (1 / 5)) ∧
      (s.sliceZs.getD s.activeView 0 = 1 / 2 →
        (run (List.replicate 200 Input.increaseSlice) s).sliceZs.getD s.activeView 0 = 1 ∧
        (run (List.replicate 200 Input.decreaseSlice) s).sliceZs.getD s.activeView 0 = 0) := by
  obtain ⟨e1, e2, e3, e4⟩ := updates_saturate
  refine ⟨fun h => ⟨?_, ?_⟩, fun h => ⟨?_, ?_⟩⟩
  · rw [run_replicate, processInput_zoomIn, iterate_onZoom _ _ _ (by omega), h, e1]
  · rw [run_replicate, processInput_zoomOut, iterate_onZoom _ _ _ (by omega), h, e2]
  · rw [run_replicate, processInput_increaseSlice, iterate_onSlice _ _ _ (by omega), h, e3]
  · rw [run_replicate, processInput_decreaseSlice, iterate_onSlice _ _ _ (by omega), h, e4]

theorem saturation_after_200_witness :
    (Session.init.activeView < 4 ∧ Session.init.sliceZs.length = 4 ∧
        Session.init.zoomLevels.length = 4 ∧
        Session.init.zoomLevels.getD Session.init.activeView 0 = 1 ∧
        Session.init.sliceZs.getD Session.init.activeView 0 = 1 / 2) ∧
      (run (List.replicate 200 Input.zoomIn) Session.init).zoomLevels.getD 1 0 = 5 ∧
      (run (List.replicate 200 Input.zoomOut) Session.init).zoomLevels.getD 1 0 = f32 (1 / 5) ∧
      (run (List.replicate 200 Input.increaseSlice) Session.init).sliceZs.getD 1 0 = 1 ∧
      (run (List.replicate 200 Input.decreaseSlice) Session.init).sliceZs.getD 1 0 = 0 :=
  have h := saturation_after_200 Session.init (by decide) rfl rfl
  ⟨⟨by decide, rfl, rfl, rfl, rfl⟩, (h.1 rfl).1, (h.1 rfl).2, (h.2 rfl).1, (h.2 rfl).2⟩

/-! ## A volume whose samples are all equal -/

theorem stdMin_init (v : Uint16) : stdMin (65535 : Uint16) v = v := by
  unfold stdMin
  split_ifs with h
  · rfl
  · have h1 : v.val < 65536 := v.isLt
    have h2 : ¬ v.val < 65535 := fun hlt => h (Fin.lt_def.2 hlt)
    have h3 : ((65535 : Uint16) : ℕ) = 65535 := rfl
    exact Fin.ext (by omega)

theorem stdMax_init (v : Uint16) : stdMax (0 : Uint16) v = v := by
  unfold stdMax
  split_ifs with h
  · rfl
  · have h2 : ¬ (0 : ℕ) < v.val := fun hlt => h (Fin.lt_def.2 hlt)
    have h3 : ((0 : Uint16) : ℕ) = 0 := rfl
    exact Fin.ext (by omega)

theorem stdMin_self (v : Uint16) : stdMin v v = v := by
  unfold stdMin
  split_ifs <;> rfl

theorem stdMax_self (v : Uint16) : stdMax v v = v := by
  unfold stdMax
  split_ifs <;> rfl

theorem foldl_const (f : Uint16 → Uint16 → Uint16) (v m : Uint16) (l : List Uint16)
    (hl : ∀ px ∈ l, px = v) (hne : l ≠ []) (hf : f (f m v) v = f m v) :
    l.foldl f m = f m v := by
  induction l generalizing m with
  | nil => exact absurd rfl hne
  | cons px l ih =>
    have hpx : px = v := hl px (List.mem_cons_self _ _)
    subst hpx
    by_cases hl0 : l = []
    · subst hl0
      rfl
    · rw [List.foldl_cons, ih (f m px) (fun q hq => hl q (List.mem_cons_of_mem _ hq)) hl0]
      · exact hf
      · rw [hf, hf]

theorem flatState_step (folder : Folder) (v : Uint16) (st : DecodeState) (ref : ℤ × String)
    (href : ∀ slice, decodeSlice folder ref = some slice → ∀ px ∈ slice, px = v)
    (hst : FlatState v st) : FlatState v (decodeStep folder st ref) := by
  cases h1 : folder.loadFile ref.2 with
  | none =>
    have : decodeStep folder st ref = st := by simp [decodeStep, h1]
    rw [this]
    exact hst
  | some dataset =>
    cases h2 : dataset.pixelData with
    | none =>
      have : decodeStep folder st ref = st := by simp [decodeStep, h1, h2]
      rw [this]
      exact hst
    | some pixels =>
      have hslice := href _ (decodeSlice_some folder ref dataset pixels h1 h2)
      rw [decodeStep_some folder st ref dataset pixels h1 h2]
      generalize readSamples pixels (folder.pastEnd ref.2)
        (sampleCount (dataset.columns.getD 0) (dataset.rows.getD 0)) = slice at hslice
      obtain ⟨hraw, hmm⟩ := hst
      have hraw2 : ∀ s ∈ st.rawSlices ++ [slice], ∀ px ∈ s, px = v := by
        intro s hs px hpx
        rcases List.mem_append.1 hs with h | h
        · exact hraw s h px hpx
        · rw [List.mem_singleton.1 h] at hpx
          exact hslice px hpx
      refine ⟨hraw2, ?_⟩
      by_cases hs0 : slice = []
      · subst hs0
        rcases hmm with ⟨hmin, hmax, hemp⟩ | ⟨hmin, hmax⟩
        · refine Or.inl ⟨hmin, hmax, ?_⟩
          intro s hs
          rcases List.mem_append.1 hs with h | h
          · exact hemp s h
          · exact List.mem_singleton.1 h
        · exact Or.inr ⟨hmin, hmax⟩
      · refine Or.inr ⟨?_, ?_⟩
        · show slice.foldl stdMin st.minVal = v
          rcases hmm with ⟨hmin, -, -⟩ | ⟨hmin, -⟩
          · rw [hmin, foldl_const stdMin v _ slice hslice hs0 (by rw [stdMin_init, stdMin_self]),
              stdMin_init]
          · rw [hmin, foldl_const stdMin v _ slice hslice hs0 (by rw [stdMin_self, stdMin_self]),
              stdMin_self]
        · show slice.foldl stdMax st.maxVal = v
          rcases hmm with ⟨-, hmax, -⟩ | ⟨-, hmax⟩
          · rw [hmax, foldl_const stdMax v _ slice hslice hs0 (by rw [stdMax_init, stdMax_self]),
              stdMax_init]
          · rw [hmax, foldl_const stdMax v _ slice hslice hs0 (by rw [stdMax_self, stdMax_self]),
              stdMax_self]

theorem flatState_foldl (folder : Folder) (v : Uint16) (l : List (ℤ × String)) (st : DecodeState)
    (hl : ∀ ref ∈ l, ∀ slice, decodeSlice folder ref = some slice → ∀ px ∈ slice, px = v)
    (hst : FlatState v st) : FlatState v (l.foldl (decodeStep folder) st) := by
  induction l generalizing st with
  | nil => exact hst
  | cons ref l ih =>
    rw [List.foldl_cons]
    exact ih _ (fun r hr => hl r (List.mem_cons_of_mem _ hr))
      (flatState_step folder v st ref (hl ref (List.mem_cons_self _ _)) hst)

theorem toByte_flat (v : Uint16) : toByte v (scaleOf v v) v = 0 := by
  unfold toByte scaleOf
  rw [if_neg (lt_irrefl v)]
  simp [f64, roundFloat, castU8]

theorem scaleOf_flat (v : Uint16) : scaleOf v v = 1 := by
  unfold scaleOf
  rw [if_neg (lt_irrefl v)]

/-- The decode loop on slices whose samples all equal `v`, whatever the pixel
data they were copied from. -/
theorem flatState_decodePass (folder : Folder) (v : Uint16)
    (hflat : ∀ ref ∈ indexPass folder, ∀ slice, decodeSlice folder ref = some slice →
      ∀ px ∈ slice, px = v) :
    FlatState v (decodePass folder (sortSlices (indexPass folder))) :=
  flatState_foldl folder v _ _
    (fun ref hr => hflat ref ((sortSlices_perm _).mem_iff.1 hr))
    ⟨fun _ hs => absurd hs (List.not_mem_nil _),
      Or.inl ⟨rfl, rfl, fun _ hs => absurd hs (List.not_mem_nil _)⟩⟩

/-- C10: when every decoded slice is copied from inside its pixel data
(`columns * rows` samples are there) and every sample of every decoded slice
equals the same 16-bit value `v`, every byte of the voxel buffer is 0; if
the buffer is not empty, `minVal == maxVal == v` and `scale` is 1.0. -/
theorem flat_volume_is_zero (folder : Folder) (v : Uint16)
    (hflat : ∀ ref ∈ indexPass folder, InBounds folder ref ∧
      ∀ slice, decodeSlice folder ref = some slice → ∀ px ∈ slice, px = v) :
    (∀ b ∈ (loadDICOMVolume folder).data, b = 0) ∧
      ((loadDICOMVolume folder).data ≠ [] →
        (decodePass folder (sortSlices (indexPass folder))).minVal = v ∧
        (decodePass folder (sortSlices (indexPass folder))).maxVal = v ∧
        scaleOf (decodePass folder (sortSlices (indexPass folder))).minVal
          (decodePass folder (sortSlices (indexPass folder))).maxVal = 1) := by
  obtain ⟨hraw, hmm⟩ := flatState_decodePass folder v (fun ref hr => (hflat ref hr).2)
  have hdata : (loadDICOMVolume folder).data =
      rescale (decodePass folder (sortSlices (indexPass folder))) := rfl
  rw [hdata]
  unfold rescale
  constructor
  · intro b hb
    obtain ⟨px, hpx, rfl⟩ := List.mem_map.1 hb
    obtain ⟨s, hs, hpxs⟩ := List.mem_flatten.1 hpx
    rcases hmm with ⟨-, -, hemp⟩ | ⟨hmin, hmax⟩
    · rw [hemp s hs] at hpxs
      exact absurd hpxs (List.not_mem_nil _)
    · rw [hmin, hmax, hraw s hs px hpxs]
      exact toByte_flat v
  · intro hne
    rcases hmm with ⟨-, -, hemp⟩ | ⟨hmin, hmax⟩
    · exfalso
      apply hne
      have hflatten : (decodePass folder (sortSlices (indexPass folder))).rawSlices.flatten = [] :=
        List.flatten_eq_nil_iff.2 hemp
      rw [hflatten]
      rfl
    · exact ⟨hmin, hmax, by rw [hmin, hmax]; exact scaleOf_flat v⟩

theorem flat_volume_is_zero_witness :
    (∀ ref ∈ indexPass flatFolder, InBounds flatFolder ref ∧
        ∀ slice, decodeSlice flatFolder ref = some slice → ∀ px ∈ slice, px = 7) ∧
      (loadDICOMVolume flatFolder).data = [0, 0, 0, 0] ∧
      (∀ b ∈ (loadDICOMVolume flatFolder).data, b = 0) ∧
      ((loadDICOMVolume flatFolder).data ≠ [] →
        (decodePass flatFolder (sortSlices (indexPass flatFolder))).minVal = 7 ∧
        (decodePass flatFolder (sortSlices (indexPass flatFolder))).maxVal = 7 ∧
        scaleOf (decodePass flatFolder (sortSlices (indexPass flatFolder))).minVal
          (decodePass flatFolder (sortSlices (indexPass flatFolder))).maxVal = 1) :=
  have hflat : ∀ ref ∈ indexPass flatFolder, InBounds flatFolder ref ∧
      ∀ slice, decodeSlice flatFolder ref = some slice → ∀ px ∈ slice, px = 7 := by
    have hidx : indexPass flatFolder = [(1, "scan/1.dcm"), (2, "scan/2.dcm")] := by decide!
    have hf1 : flatFolder.loadFile "scan/1.dcm" = some (sliceFile 1 2 1 [7, 7]) := by decide!
    have hf2 : flatFolder.loadFile "scan/2.dcm" = some (sliceFile 2 2 1 [7, 7, 1000]) := by
      decide!
    have hd1 : decodeSlice flatFolder (1, "scan/1.dcm") = some [7, 7] := by decide!
    have hd2 : decodeSlice flatFolder (2, "scan/2.dcm") = some [7, 7] := by decide!
    rw [hidx]
    intro ref href
    rcases List.mem_cons.1 href with rfl | href
    · refine ⟨?_, ?_⟩
      · intro dataset pixels h1 h2
        rw [hf1] at h1
        cases h1
        cases h2
        decide
      · intro slice hs px hpx
        rw [hd1] at hs
        cases hs
        simpa using hpx
    · rcases List.mem_cons.1 href with rfl | href
      · refine ⟨?_, ?_⟩
        · intro dataset pixels h1 h2
          rw [hf2] at h1
          cases h1
          cases h2
          decide
        · intro slice hs px hpx
          rw [hd2] at hs
          cases hs
          simpa using hpx
      · exact absurd href (List.not_mem_nil _)
  ⟨hflat, by decide!, flat_volume_is_zero flatFolder 7 hflat⟩

/-- A copy that runs past the pixel data: a 2 x 2 file with the single sample 5
yields a slice of 4 words, the sample and three words from behind the buffer. -/
theorem short_buffer_is_read_past :
    decodeSlice shortFolder (1, "scan/1.dcm") = some [5, 9, 9, 9] ∧
      (loadDICOMVolume shortFolder).data = [0, 255, 255, 255] ∧
      (loadDICOMVolume shortFolder).width = 2 ∧ (loadDICOMVolume shortFolder).height = 2 ∧
      (loadDICOMVolume shortFolder).depth = 1 := by
  decide!

/-! ## The rescale: range of the stored bytes -/

theorem rne_error (t : ℚ) : (rne t : ℚ) ≤ t + 1 / 2 ∧ t - 1 / 2 ≤ (rne t : ℚ) := by
  have h1 := Int.floor_le t
  have h2 := Int.lt_floor_add_one t
  unfold rne
  simp only
  split_ifs <;> push_cast <;> constructor <;> linarith

theorem roundFloat_error (p : ℕ) (emin : ℤ) (x : ℚ) :
    roundFloat p emin x ≤ x + (2 : ℚ) ^ ulpExp p emin x / 2 ∧
      x - (2 : ℚ) ^ ulpExp p emin x / 2 ≤ roundFloat p emin x := by
  have hpos : (0 : ℚ) < (2 : ℚ) ^ ulpExp p emin x := by positivity
  unfold roundFloat
  split_ifs with h0
  · subst h0
    constructor <;> linarith
  · obtain ⟨e1, e2⟩ := rne_error (x / (2 : ℚ) ^ ulpExp p emin x)
    have hx : x = x / (2 : ℚ) ^ ulpExp p emin x * (2 : ℚ) ^ ulpExp p emin x := by
      field_simp
    constructor
    · calc (rne (x / (2 : ℚ) ^ ulpExp p emin x) : ℚ) * (2 : ℚ) ^ ulpExp p emin x
          ≤ (x / (2 : ℚ) ^ ulpExp p emin x + 1 / 2) * (2 : ℚ) ^ ulpExp p emin x :=
            mul_le_mul_of_nonneg_right e1 (le_of_lt hpos)
        _ = x + (2 : ℚ) ^ ulpExp p emin x / 2 := by
            rw [add_mul, ← hx]
            ring
    · calc x - (2 : ℚ) ^ ulpExp p emin x / 2
          = (x / (2 : ℚ) ^ ulpExp p emin x - 1 / 2) * (2 : ℚ) ^ ulpExp p emin x := by
            rw [sub_mul, ← hx]
            ring
        _ ≤ (rne (x / (2 : ℚ) ^ ulpExp p emin x) : ℚ) * (2 : ℚ) ^ ulpExp p emin x :=
            mul_le_mul_of_nonneg_right e2 (le_of_lt hpos)

theorem f64_mono {x y : ℚ} (hx : 0 < x) (hxy : x ≤ y) : f64 x ≤ f64 y :=
  roundFloat_mono 53 (-1022) (by norm_num) hx hxy

theorem f64_consts : f64 (511 / 2) = 511 / 2 ∧ f64 254 = 254 := by decide!

theorem scale_error (d : ℚ) (hd1 : 1 ≤ d) :
    f64 (255 / d) ≤ 255 / d + (2 : ℚ) ^ (-46 : ℤ) ∧
      255 / d - (2 : ℚ) ^ (-46 : ℤ) ≤ f64 (255 / d) := by
  have hdpos : 0 < d := by linarith
  have hx : 0 < 255 / d := by positivity
  have hx255 : 255 / d ≤ 255 := by
    rw [div_le_iff₀ hdpos]
    nlinarith
  obtain ⟨hl, -⟩ := ilog2_spec (255 / d) (ne_of_gt hx)
  rw [abs_of_pos hx] at hl
  have hlog : ilog2 (255 / d) < 8 := by
    have h8 : (2 : ℚ) ^ ilog2 (255 / d) < (2 : ℚ) ^ (8 : ℤ) := by
      refine lt_of_le_of_lt (le_trans hl hx255) ?_
      norm_num
    exact (zpow_lt_zpow_iff_right₀ (by norm_num : (1 : ℚ) < 2)).1 h8
  have hulp : ulpExp 53 (-1022) (255 / d) ≤ -45 := by
    unfold ulpExp
    rw [max_def]
    split_ifs
    · omega
    · omega
  have hpow : (2 : ℚ) ^ ulpExp 53 (-1022) (255 / d) / 2 ≤ (2 : ℚ) ^ (-46 : ℤ) := by
    have h1 : (2 : ℚ) ^ ulpExp 53 (-1022) (255 / d) ≤ (2 : ℚ) ^ (-45 : ℤ) :=
      zpow_le_zpow_right₀ (by norm_num) hulp
    have h2 : (2 : ℚ) ^ (-45 : ℤ) / 2 = (2 : ℚ) ^ (-46 : ℤ) := by norm_num
    linarith
  obtain ⟨e1, e2⟩ := roundFloat_error 53 (-1022) (255 / d)
  unfold f64
  constructor <;> linarith

theorem scaled_bounds (d k : ℚ) (hd1 : 1 ≤ d) (hd2 : d ≤ 65535) (hk0 : 0 ≤ k) (hk : k ≤ d) :
    0 ≤ f64 (k * f64 (255 / d)) ∧ f64 (k * f64 (255 / d)) ≤ 511 / 2 ∧
      254 ≤ f64 (d * f64 (255 / d)) := by
  have hdpos : 0 < d := by linarith
  obtain ⟨e1, e2⟩ := scale_error d hd1
  have hs0 : 0 ≤ f64 (255 / d) := roundFloat_nonneg 53 (-1022) (by positivity)
  have hmul : d * (255 / d) = 255 := by field_simp
  have hsmall : d * (2 : ℚ) ^ (-46 : ℤ) ≤ 1 / 2 := by
    have : (2 : ℚ) ^ (-46 : ℤ) = 1 / 70368744177664 := by norm_num
    rw [this]
    linarith
  have hup : d * f64 (255 / d) ≤ 511 / 2 := by
    have := mul_le_mul_of_nonneg_left e1 (le_of_lt hdpos)
    rw [mul_add, hmul] at this
    linarith
  have hlow : 254 ≤ d * f64 (255 / d) := by
    have := mul_le_mul_of_nonneg_left e2 (le_of_lt hdpos)
    rw [mul_sub, hmul] at this
    linarith
  have hks : k * f64 (255 / d) ≤ 511 / 2 :=
    le_trans (mul_le_mul_of_nonneg_right hk hs0) hup
  refine ⟨roundFloat_nonneg 53 (-1022) (mul_nonneg hk0 hs0), ?_, ?_⟩
  · rcases eq_or_lt_of_le (mul_nonneg hk0 hs0) with h0 | hpos
    · rw [← h0]
      have : f64 0 = 0 := by simp [f64, roundFloat]
      rw [this]
      norm_num
    · have := f64_mono hpos hks
      rwa [f64_consts.1] at this
  · have := f64_mono (by norm_num : (0 : ℚ) < 254) hlow
    rwa [f64_consts.2] at this

theorem castU8_of_range (y : ℚ) (h0 : 0 ≤ y) (h1 : y < 256) :
    (castU8 y : ℤ) = ⌊y⌋ ∧ castU8 y ≤ 255 := by
  have hf0 : 0 ≤ ⌊y⌋ := Int.floor_nonneg.2 h0
  have hf1 : ⌊y⌋ < 256 := Int.floor_lt.2 (by exact_mod_cast h1)
  unfold castU8
  rw [if_pos h0, Int.emod_eq_of_lt hf0 hf1]
  constructor <;> omega

/-- The part of the normalization bounds that holds: for `minVal < maxVal` and a
sample between them, the product `(px - minVal) * scale` lies in [0, 256), so
the stored byte is its integer part and at most 255; the sample equal to
`minVal` is stored as 0; the sample equal to `maxVal` is stored as 254 or 255. -/
theorem rescale_range (minVal maxVal px : Uint16) (hlt : minVal < maxVal)
    (hlo : minVal ≤ px) (hhi : px ≤ maxVal) :
    (toByte minVal (scaleOf minVal maxVal) px : ℤ) =
        ⌊f64 ((((px.val : ℤ) - (minVal.val : ℤ) : ℤ) : ℚ) * scaleOf minVal maxVal)⌋ ∧
      toByte minVal (scaleOf minVal maxVal) px ≤ 255 ∧
      toByte minVal (scaleOf minVal maxVal) minVal = 0 ∧
      (toByte minVal (scaleOf minVal maxVal) maxVal = 254 ∨
        toByte minVal (scaleOf minVal maxVal) maxVal = 255) := by
  have hlt2 : minVal.val < maxVal.val := Fin.lt_def.1 hlt
  have hlo2 : minVal.val ≤ px.val := Fin.le_def.1 hlo
  have hhi2 : px.val ≤ maxVal.val := Fin.le_def.1 hhi
  have hmax : maxVal.val < 65536 := maxVal.isLt
  have hd1 : (1 : ℚ) ≤ (((maxVal.val : ℤ) - (minVal.val : ℤ) : ℤ) : ℚ) := by
    have : (1 : ℤ) ≤ (maxVal.val : ℤ) - (minVal.val : ℤ) := by omega
    exact_mod_cast this
  have hd2 : (((maxVal.val : ℤ) - (minVal.val : ℤ) : ℤ) : ℚ) ≤ 65535 := by
    have : (maxVal.val : ℤ) - (minVal.val : ℤ) ≤ 65535 := by omega
    exact_mod_cast this
  have hk0 : (0 : ℚ) ≤ (((px.val : ℤ) - (minVal.val : ℤ) : ℤ) : ℚ) := by
    have : (0 : ℤ) ≤ (px.val : ℤ) - (minVal.val : ℤ) := by omega
    exact_mod_cast this
  have hk : (((px.val : ℤ) - (minVal.val : ℤ) : ℤ) : ℚ) ≤
      (((maxVal.val : ℤ) - (minVal.val : ℤ) : ℤ) : ℚ) := by
    have : (px.val : ℤ) - (minVal.val : ℤ) ≤ (maxVal.val : ℤ) - (minVal.val : ℤ) := by omega
    exact_mod_cast this
  have hscale : scaleOf minVal maxVal =
      f64 (255 / (((maxVal.val : ℤ) - (minVal.val : ℤ) : ℤ) : ℚ)) := by
    unfold scaleOf
    rw [if_pos hlt]
  obtain ⟨b0, b1, -⟩ := scaled_bounds _ _ hd1 hd2 hk0 hk
  obtain ⟨-, -, m0⟩ := scaled_bounds _ _ hd1 hd2 (le_trans zero_le_one hd1) le_rfl
  obtain ⟨-, m1, -⟩ := scaled_bounds _ _ hd1 hd2 (le_trans zero_le_one hd1) le_rfl
  rw [← hscale] at b0 b1 m0 m1
  obtain ⟨c1, c2⟩ := castU8_of_range _ b0 (by linarith)
  obtain ⟨c3, -⟩ := castU8_of_range _ (le_trans (by norm_num) m0) (by linarith)
  refine ⟨c1, c2, ?_, ?_⟩
  · unfold toByte
    simp [f64, roundFloat, castU8]
  · have hfl1 : 254 ≤ ⌊f64 ((((maxVal.val : ℤ) - (minVal.val : ℤ) : ℤ) : ℚ) *
        scaleOf minVal maxVal)⌋ := Int.le_floor.2 (by exact_mod_cast m0)
    have hfl2 : ⌊f64 ((((maxVal.val : ℤ) - (minVal.val : ℤ) : ℤ) : ℚ) *
        scaleOf minVal maxVal)⌋ < 256 :=
      Int.floor_lt.2 (lt_of_le_of_lt m1 (by norm_num))
    have hto : (toByte minVal (scaleOf minVal maxVal) maxVal : ℤ) =
        ⌊f64 ((((maxVal.val : ℤ) - (minVal.val : ℤ) : ℤ) : ℚ) * scaleOf minVal maxVal)⌋ := c3
    have hle : toByte minVal (scaleOf minVal maxVal) maxVal ≤ 255 :=
      (castU8_of_range _ (le_trans (by norm_num) m0) (by linarith)).2
    omega

end DicomViewer
